import Mathlib

/-!
Verification of the tree-outline editor's core engine.

The source is a TypeScript application that edits a hierarchical outline
encoded as tab-indented text.  This file gives a shallow embedding of the
parts of the source the properties below are about:

* the text/tree conversion utilities (`getIndentDepth`, `parseTextToTree`,
  `serializeTreeToText`, `flattenTree`, `findNodeById` — kept under the
  same names where Lean allows);
* the browser-view tree operations (`removeNode`, `updateNodeDepth`,
  `insertNode`, the drag-and-drop `move` flow with its `isDescendant`
  cycle guard, `handleUpdateText`'s tree transformation, the child/sibling
  insertion maps);
* the undo/redo history (`addToHistory`, `handleUndo`, `handleRedo`) with
  the component state `(nodes, history, historyIndex)`.

Modelling conventions:
* JavaScript strings are embedded as `List Char` (`Str`); `split('\n')`
  is `List.splitOn '\n'`, `join('\n')` is `List.intercalate ['\n']`, and
  `String.prototype.trim` is `jsTrim` below.
* The `parent` back-references of the source's node objects are not part
  of the inductive tree value (they would make the object graph cyclic);
  wherever the source consults a parent pointer the embedding performs
  the equivalent structural operation, noted at the definition.
* `Date.now()` is passed in as an explicit `now : Nat` parameter of the
  functions that generate fresh ids.
* The source mutates nodes in place while parsing; the embedding threads
  the same stack algorithm through an explicit state
  `(finished roots, stack of open ancestors)`, attaching a node to its
  parent at the moment it is popped (which is observationally the same
  point at which the source's already-attached node stops changing).
-/

/-- JavaScript strings, embedded as lists of characters. -/
abbrev Str := List Char

/-- Whitespace for `String.prototype.trim` (space, tab, LF, CR, VT, FF,
NBSP — the characters relevant to this code base). -/
def isJsWhitespace (ch : Char) : Bool :=
  ch = ' ' || ch = '\t' || ch = '\n' || ch = '\r' ||
  ch = Char.ofNat 11 || ch = Char.ofNat 12 || ch = Char.ofNat 160

/-- `String.prototype.trim`: drop whitespace from both ends. -/
def jsTrim (l : Str) : Str :=
  ((l.dropWhile isJsWhitespace).reverse.dropWhile isJsWhitespace).reverse

/-- From `src/unnamed/part_002` (`getIndentDepth`): count the leading tab
characters of a line; the loop stops at the first non-tab character. -/
def getIndentDepth : Str → Nat
  | [] => 0
  | ch :: rest => if ch = '\t' then getIndentDepth rest + 1 else 0

/-- `line.replace(/^\t+/, '')`: strip the leading run of tabs. -/
def stripTabs : Str → Str
  | [] => []
  | ch :: rest => if ch = '\t' then stripTabs rest else ch :: rest

/-- The id string `node-${Date.now()}-${index}` built by the parser. -/
def mkNodeId (now idx : Nat) : Str :=
  ("node-" ++ toString now ++ "-" ++ toString idx).toList

/-- The id string `node-${Date.now()}` built by the browser-view insert
operations. -/
def mkNodeIdNow (now : Nat) : Str :=
  ("node-" ++ toString now).toList

/-- The node record of `src/types/index.ts` (`TreeNode`), minus the
`parent` back-reference (see the header). -/
inductive TNode where
  | mk (id : Str) (text : Str) (depth : Nat) (children : List TNode)
      (isExpanded : Bool)

/-- Field accessor for `id`. -/
def TNode.id : TNode → Str
  | .mk i _ _ _ _ => i

/-- Field accessor for `text`. -/
def TNode.text : TNode → Str
  | .mk _ t _ _ _ => t

/-- Field accessor for `depth`. -/
def TNode.depth : TNode → Nat
  | .mk _ _ d _ _ => d

/-- Field accessor for `children`. -/
def TNode.children : TNode → List TNode
  | .mk _ _ _ c _ => c

/-- Field accessor for `isExpanded`. -/
def TNode.isExpanded : TNode → Bool
  | .mk _ _ _ _ e => e

@[simp] theorem TNode.id_mk (i t : Str) (d : Nat) (c : List TNode) (e : Bool) :
    (TNode.mk i t d c e).id = i := rfl

@[simp] theorem TNode.text_mk (i t : Str) (d : Nat) (c : List TNode) (e : Bool) :
    (TNode.mk i t d c e).text = t := rfl

@[simp] theorem TNode.depth_mk (i t : Str) (d : Nat) (c : List TNode) (e : Bool) :
    (TNode.mk i t d c e).depth = d := rfl

@[simp] theorem TNode.children_mk (i t : Str) (d : Nat) (c : List TNode) (e : Bool) :
    (TNode.mk i t d c e).children = c := rfl

@[simp] theorem TNode.isExpanded_mk (i t : Str) (d : Nat) (c : List TNode) (e : Bool) :
    (TNode.mk i t d c e).isExpanded = e := rfl

mutual
/-- All ids of a tree, pre-order (helper for stating properties). -/
def idsT : TNode → List Str
  | .mk i _ _ c _ => i :: idsF c
def idsF : List TNode → List Str
  | [] => []
  | n :: rest => idsT n ++ idsF rest
end

mutual
/-- Pre-order `(id, text, depth)` projection (helper for stating
properties). -/
def infoT : TNode → List (Str × Str × Nat)
  | .mk i t d c _ => (i, t, d) :: infoF c
def infoF : List TNode → List (Str × Str × Nat)
  | [] => []
  | n :: rest => infoT n ++ infoF rest
end

mutual
/-- Occurrence of a subtree inside a tree (helper for stating
properties). -/
def OccursT (m : TNode) : TNode → Prop
  | .mk i t d c e => m = .mk i t d c e ∨ OccursF m c
def OccursF (m : TNode) : List TNode → Prop
  | [] => False
  | n :: rest => OccursT m n ∨ OccursF m rest
end

/-! ### Parser (`src/unnamed/part_002`) -/

/-- Attach a fully-built subtree as the last child of a stack frame:
in the source this `children.push` happened at node creation, but the
children list of a frame only stops growing once the frame is popped. -/
def withChild (p : TNode) (sub : TNode) : TNode :=
  .mk p.id p.text p.depth (p.children ++ [sub]) p.isExpanded

mutual
/-- Continue popping with `pending`, the consolidated subtree already
popped off the stack, waiting to be attached to the next frame below. -/
def popGEAux (d : Nat) (roots : List TNode) (pending : TNode) :
    List TNode → List TNode × List TNode
  | [] => (roots ++ [pending], [])
  | p :: rs =>
    if d ≤ p.depth then popGEAux d roots (withChild p pending) rs
    else (roots, withChild p pending :: rs)

/-- The parser's `while (stack.length > 0 && stack[stack.length-1].depth
>= depth) stack.pop()` loop, with attachment made explicit: each popped
frame becomes the last child of the frame below it (or a new last root
when the stack empties). -/
def popGE (d : Nat) (roots : List TNode) :
    List TNode → List TNode × List TNode
  | [] => (roots, [])
  | top :: rest =>
    if d ≤ top.depth then popGEAux d roots top rest
    else (roots, top :: rest)
end

/-- One iteration of the parser's `lines.forEach` body: pop stale frames,
then push the node of the current line (depth = its leading-tab count,
text = the line with leading tabs stripped and edges trimmed). -/
def parseStep (now : Nat) (st : List TNode × List TNode) (p : Nat × Str) :
    List TNode × List TNode :=
  let d := getIndentDepth p.2
  let txt := jsTrim (stripTabs p.2)
  let st2 := popGE d st.1 st.2
  (st2.1, TNode.mk (mkNodeId now p.1) txt d [] true :: st2.2)

/-- From `src/unnamed/part_002` (`parseTextToTree`): split on newlines,
drop blank lines, then run the stack algorithm; finally flush the stack
(`popGE 0`), which attaches every still-open frame to its parent. -/
def parseTextToTree (text : Str) (now : Nat) : List TNode :=
  let lines := (text.splitOn '\n').filter (fun l => !(jsTrim l).isEmpty)
  let st := lines.enum.foldl (parseStep now) ([], [])
  (popGE 0 st.1 st.2).1

mutual
/-- Lines of the serialized form: `'\t'.repeat(node.depth) + node.text`
for each node, pre-order (the `traverse` of `serializeTreeToText`). -/
def serLinesT : TNode → List Str
  | .mk _ t d c _ => (List.replicate d '\t' ++ t) :: serLinesF c
def serLinesF : List TNode → List Str
  | [] => []
  | n :: rest => serLinesT n ++ serLinesF rest
end

/-- From `src/unnamed/part_002` (`serializeTreeToText`): emit one line per
node in pre-order and join with `'\n'`. -/
def serializeTreeToText (nodes : List TNode) : Str :=
  List.intercalate ['\n'] (serLinesF nodes)

mutual
/-- From `src/unnamed/part_002` (`flattenTree`): pre-order walk emitting a
node always and its children only when `isExpanded`. -/
def flattenT : TNode → List TNode
  | .mk i t d c e =>
    .mk i t d c e :: (if e then flattenF c else [])
def flattenF : List TNode → List TNode
  | [] => []
  | n :: rest => flattenT n ++ flattenF rest
end

mutual
/-- From `src/unnamed/part_002` (`findNodeById`): first match in
pre-order, searching a node's subtree before its right siblings. -/
def findT (x : Str) : TNode → Option TNode
  | .mk i t d c e => if i = x then some (.mk i t d c e) else findF x c
def findF (x : Str) : List TNode → Option TNode
  | [] => none
  | n :: rest =>
    match findT x n with
    | some m => some m
    | none => findF x rest
end

/-! ### Browser view (`src/components/TreeNode.tsx`) -/

/-- The display record built by the component's `flatNodes` memo (the
running `index` is the position in the emitted list). -/
structure FlatNode where
  id : Str
  text : Str
  depth : Nat
  hasChildren : Bool
  isExpanded : Bool

mutual
/-- The component's `flatNodes` traversal: emit a record for every node,
and recurse into children exactly when the node's id is in the
`expandedIds` set (modeled as its membership function `S`). -/
def flatNodesT (S : Str → Bool) : TNode → List FlatNode
  | .mk i t d c _ =>
    { id := i, text := t, depth := d, hasChildren := !c.isEmpty,
      isExpanded := S i } :: (if S i then flatNodesF S c else [])
def flatNodesF (S : Str → Bool) : List TNode → List FlatNode
  | [] => []
  | n :: rest => flatNodesT S n ++ flatNodesF S rest
end

/-- Update the `expandedIds` membership function at one id (the
`Set.add` / `Set.delete` of the component's expansion handlers). -/
def setMem (S : Str → Bool) (x : Str) (b : Bool) : Str → Bool :=
  fun i => if i = x then b else S i

mutual
/-- The `removeNode` helper that appears verbatim in `handleDelete`,
`handleUpdateText` and `handleDrop`: drop every node whose id matches and
keep recursing into the children of the survivors. -/
def removeT (x : Str) : TNode → TNode
  | .mk i t d c e => .mk i t d (removeF x c) e
def removeF (x : Str) : List TNode → List TNode
  | [] => []
  | .mk i t d c e :: rest =>
    if i = x then removeF x rest
    else removeT x (.mk i t d c e) :: removeF x rest
end

mutual
/-- `handleDrop`'s `updateNodeDepth`: set the node's depth to `newDepth`
and recursively set each child's depth to one more (the source also
rewires the `parent` pointer, which the embedding does not carry). -/
def updT (dd : Nat) : TNode → TNode
  | .mk i t _ c e => .mk i t dd (updF (dd + 1) c) e
def updF (dd : Nat) : List TNode → List TNode
  | [] => []
  | n :: rest => updT dd n :: updF dd rest
end

/-- JavaScript `array.splice(i, 0, a)` on a copied array: insert `a` at
position `i` (appending when `i` exceeds the length). -/
def spliceIn (i : Nat) (a : TNode) (l : List TNode) : List TNode :=
  l.take i ++ a :: l.drop i

/-- A placeholder for an array access the source never performs out of
bounds. -/
def dummyNode : TNode := .mk [] [] 0 [] true

/-- The drop positions of the drag flow. -/
inductive DropPosition where
  | before
  | after
  | child
deriving DecidableEq

mutual
/-- `handleDrop`'s `insertNode`: at the target (position `child`) append
the depth-corrected subtree as last child and force `isExpanded`; at a
node owning the target as a direct child (positions `before`/`after`)
splice the depth-corrected subtree next to the target; otherwise recurse
into non-empty children. -/
def insertNodeT (targetId : Str) (newNode : TNode) (pos : DropPosition) :
    TNode → TNode
  | .mk i t d c e =>
    if i = targetId ∧ pos = .child then
      .mk i t d (c ++ [updT (d + 1) newNode]) true
    else if c.isEmpty then .mk i t d c e
    else
      match c.findIdx? (fun m => decide (m.id = targetId)), pos with
      | some ci, .before =>
        .mk i t d (spliceIn ci (updT (c.getD ci dummyNode).depth newNode) c) e
      | some ci, .after =>
        .mk i t d (spliceIn (ci + 1) (updT (c.getD ci dummyNode).depth newNode) c) e
      | _, _ => .mk i t d (insertNodeF targetId newNode pos c) e
def insertNodeF (targetId : Str) (newNode : TNode) (pos : DropPosition) :
    List TNode → List TNode
  | [] => []
  | n :: rest =>
    insertNodeT targetId newNode pos n :: insertNodeF targetId newNode pos rest
end

mutual
/-- `handleDragOver`'s `isDescendant` guard: does `x` occur (as an id) in
this subtree, the subtree root included? -/
def isDescT (x : Str) : TNode → Bool
  | .mk i _ _ c _ => decide (i = x) || isDescF x c
def isDescF (x : Str) : List TNode → Bool
  | [] => false
  | n :: rest => isDescT x n || isDescF x rest
end

/-- The composed drag-and-drop move of one gesture, as the claims frame
it: `handleDragOver`'s validation (self-drop and descendant-drop clear
the pending drop target, so the drop is a no-op; so does a failed id
lookup) followed by `handleDrop`'s tree update (the root-level
before/after splice, or `removeNode` + `insertNode`). -/
def moveNode (nodes : List TNode) (draggingId targetId : Str)
    (pos : DropPosition) : List TNode :=
  if draggingId = targetId then nodes
  else
    match findF draggingId nodes, findF targetId nodes with
    | some dragNode, some _ =>
      if isDescT targetId dragNode then nodes
      else
        if (nodes.findIdx? (fun m => decide (m.id = targetId))).isSome ∧
            (pos = .before ∨ pos = .after) then
          let nws := removeF draggingId nodes
          match nws.findIdx? (fun m => decide (m.id = targetId)) with
          | some ti =>
            spliceIn (if pos = .before then ti else ti + 1)
              (updT 0 dragNode) nws
          | none => nodes
        else insertNodeF targetId dragNode pos (removeF draggingId nodes)
    | _, _ => nodes

mutual
/-- `handleUpdateText`'s non-empty branch (`updateNode`): replace the text
of the node whose id matches (its children are returned as they are);
recurse into children of the other nodes. -/
def setTextT (x : Str) (newText : Str) : TNode → TNode
  | .mk i t d c e =>
    if i = x then .mk i newText d c e
    else .mk i t d (setTextF x newText c) e
def setTextF (x : Str) (newText : Str) : List TNode → List TNode
  | [] => []
  | n :: rest => setTextT x newText n :: setTextF x newText rest
end

/-- The tree transformation of `handleUpdateText`: an empty-after-trim
text cancels the node (delete via `removeNode`), otherwise the text of
the matching node is replaced. -/
def handleUpdateTextNodes (nodes : List TNode) (x : Str) (newText : Str) :
    List TNode :=
  if (jsTrim newText).isEmpty then removeF x nodes
  else setTextF x newText nodes

mutual
/-- `handleAddChild`'s `updateNode`: at the node whose id matches, append
a fresh empty node (depth one deeper) as last child and force
`isExpanded`; recurse into children of the other nodes. -/
def addChildT (x : Str) (now : Nat) : TNode → TNode
  | .mk i t d c e =>
    if i = x then
      .mk i t d (c ++ [TNode.mk (mkNodeIdNow now) [] (d + 1) [] true]) true
    else .mk i t d (addChildF x now c) e
def addChildF (x : Str) (now : Nat) : List TNode → List TNode
  | [] => []
  | n :: rest => addChildT x now n :: addChildF x now rest
end

mutual
/-- The structural content of `handleAddSibling`'s successful path: the
source looks the anchor up in `nodeMap`, then splices a fresh node (at
the anchor's stored depth) right after the anchor inside its parent's
children — found through the anchor's `parent` pointer — or inside the
root list when the anchor is a root.  Without parent pointers that is:
insert right after the node whose id matches, at whatever level it
lives. -/
def addSiblingT (x : Str) (newNode : TNode) : TNode → TNode
  | .mk i t d c e => .mk i t d (addSiblingF x newNode c) e
def addSiblingF (x : Str) (newNode : TNode) : List TNode → List TNode
  | [] => []
  | n :: rest =>
    if n.id = x then n :: newNode :: rest
    else addSiblingT x newNode n :: addSiblingF x newNode rest
end

/-! ### History (`src/components/TreeNode.tsx`) -/

/-- The component state the claims are about: the displayed forest
(`nodes`), the snapshot list (`history`) and the cursor
(`historyIndex`). -/
structure BState where
  nodes : List TNode
  history : List (List TNode)
  index : Nat

/-- `addToHistory`: truncate after the cursor (`slice(0, index + 1)`),
append the snapshot; past 50 entries evict the oldest (`shift()`) and
leave the cursor as it is, otherwise point the cursor at the new end. -/
def addToHistory (s : BState) (newNodes : List TNode) :
    List (List TNode) × Nat :=
  let nh := s.history.take (s.index + 1) ++ [newNodes]
  if 50 < nh.length then (nh.drop 1, s.index)
  else (nh, nh.length - 1)

/-- A mutator commit: `addToHistory(updated)` followed by
`onUpdateNodes(updated)`. -/
def pushOp (s : BState) (updated : List TNode) : BState :=
  let hi := addToHistory s updated
  { nodes := updated, history := hi.1, index := hi.2 }

/-- `handleUndo`: when the cursor is positive, step it back and display
that snapshot (the source's `history[newIndex]` is always in bounds; the
`getD` default is never reached). -/
def undoOp (s : BState) : BState :=
  if 0 < s.index then
    { s with index := s.index - 1, nodes := s.history.getD (s.index - 1) [] }
  else s

/-- `handleRedo`: when the cursor is not at the last entry, step it
forward and display that snapshot. -/
def redoOp (s : BState) : BState :=
  if s.index < s.history.length - 1 then
    { s with index := s.index + 1, nodes := s.history.getD (s.index + 1) [] }
  else s

/-- The initial component state: `useState([nodes])`, `useState(0)`. -/
def initState (t0 : List TNode) : BState :=
  { nodes := t0, history := [t0], index := 0 }

/-- `handleDelete` as a state transformer: remove, record, display. -/
def handleDeleteOp (s : BState) (x : Str) : BState :=
  pushOp s (removeF x s.nodes)

/-- `handleUpdateText` as a state transformer. -/
def handleUpdateTextOp (s : BState) (x : Str) (newText : Str) : BState :=
  pushOp s (handleUpdateTextNodes s.nodes x newText)

/-- `handleAddChild` as a state transformer. -/
def handleAddChildOp (s : BState) (x : Str) (now : Nat) : BState :=
  pushOp s (addChildF x now s.nodes)

/-- `handleAddSibling` as a state transformer: the source returns before
touching anything when `nodeMap.get(id)` fails; otherwise it splices the
fresh sibling (depth = the anchor's stored depth) and commits. -/
def handleAddSiblingOp (s : BState) (x : Str) (now : Nat) : BState :=
  match findF x s.nodes with
  | none => s
  | some anchor =>
    pushOp s
      (addSiblingF x (TNode.mk (mkNodeIdNow now) [] anchor.depth [] true)
        s.nodes)

/-- The history-facing operations a user can drive. -/
inductive HOp where
  | push (t : List TNode)
  | undo
  | redo

/-- Apply one history-facing operation to the component state. -/
def applyOp (s : BState) : HOp → BState
  | .push t => pushOp s t
  | .undo => undoOp s
  | .redo => redoOp s

/-! ### Properties stated over the embedding -/

mutual
/-- The well-formed-line shape of claim C2, decided: after the leading
tabs there is a non-empty body that `trim` leaves unchanged. -/
def lineShape (l : Str) : Bool :=
  !(stripTabs l).isEmpty && decide (jsTrim (stripTabs l) = stripTabs l)
end

mutual
/-- Does every child sit strictly deeper than this node, recursively? -/
def strictOkT : TNode → Bool
  | .mk _ _ d c _ => strictAbove d c
/-- Are all members of the list strictly deeper than `d`, recursively
well-nested? -/
def strictAbove (d : Nat) : List TNode → Bool
  | [] => true
  | n :: rest => (decide (d < n.depth) && strictOkT n) && strictAbove d rest
end

/-- Every root's subtree is strictly increasing in depth along edges. -/
def strictOkF : List TNode → Bool
  | [] => true
  | n :: rest => strictOkT n && strictOkF rest

mutual
/-- Does every child have depth exactly one more than this node,
recursively? -/
def consecOkT : TNode → Bool
  | .mk _ _ d c _ => consecAbove d c
/-- Are all members of the list at depth exactly `d + 1`, recursively
consecutively nested? -/
def consecAbove (d : Nat) : List TNode → Bool
  | [] => true
  | n :: rest => (decide (n.depth = d + 1) && consecOkT n) && consecAbove d rest
end

/-- Every tree of the forest is consecutively nested. -/
def consecOkF : List TNode → Bool
  | [] => true
  | n :: rest => consecOkT n && consecOkF rest

/-- The depth invariant claim C3 states for parser output: roots at
depth 0, every child one deeper than its parent. -/
def parserDepthClaim (l : List TNode) : Bool :=
  l.all (fun n => decide (n.depth = 0)) && consecOkF l

mutual
/-- Does this subtree store depth `dd` at its root and `dd + 1 + r` at
relative structural depth `r` throughout? -/
def depthsFromT (dd : Nat) : TNode → Bool
  | .mk _ _ d c _ => decide (d = dd) && depthsFromF (dd + 1) c
def depthsFromF (dd : Nat) : List TNode → Bool
  | [] => true
  | n :: rest => depthsFromT dd n && depthsFromF dd rest
end

/-- No node of the forest has its own id among its descendants' ids —
the id-level reading of "no node is an ancestor of itself". -/
def acycF (l : List TNode) : Prop :=
  ∀ n, OccursF n l → n.id ∉ idsF n.children

/-- The expansion-independent content of a `flatNodes` record. -/
def flatCore (m : FlatNode) : Str × Str × Nat × Bool :=
  (m.id, m.text, m.depth, m.hasChildren)

/-- Pre-order lines contributed by the still-open stack frames, bottom
frame first (helper for the parser invariant). -/
def stackSerLines : List TNode → List Str
  | [] => []
  | t :: s => stackSerLines s ++ serLinesT t

/-! ### Basic structural lemmas -/

theorem idsT_eq (n : TNode) : idsT n = n.id :: idsF n.children := by
  cases n; rfl

theorem infoT_eq (n : TNode) :
    infoT n = (n.id, n.text, n.depth) :: infoF n.children := by
  cases n; rfl

theorem idsF_append (a b : List TNode) :
    idsF (a ++ b) = idsF a ++ idsF b := by
  induction a with
  | nil => rfl
  | cons n rest ih => simp [idsF, ih]

theorem infoF_append (a b : List TNode) :
    infoF (a ++ b) = infoF a ++ infoF b := by
  induction a with
  | nil => rfl
  | cons n rest ih => simp [infoF, ih]

theorem serLinesF_append (a b : List TNode) :
    serLinesF (a ++ b) = serLinesF a ++ serLinesF b := by
  induction a with
  | nil => rfl
  | cons n rest ih => simp [serLinesF, ih]

mutual
theorem info_fst_T : ∀ (n : TNode), (infoT n).map (fun p => p.1) = idsT n
  | .mk i t d c e => by
    simp only [infoT, idsT, List.map_cons]
    exact congrArg (i :: ·) (info_fst_F c)
theorem info_fst_F : ∀ (l : List TNode), (infoF l).map (fun p => p.1) = idsF l
  | [] => rfl
  | n :: rest => by
    simp only [infoF, idsF, List.map_append]
    rw [info_fst_T n, info_fst_F rest]
end

mutual
theorem findT_mem : ∀ (n : TNode) (x : Str) (m : TNode),
    findT x n = some m → m.id = x ∧ OccursT m n
  | .mk i t d c e, x, m => by
    simp only [findT]
    split
    · rintro ⟨rfl⟩
      exact ⟨by simpa using ‹i = x›, Or.inl rfl⟩
    · intro h
      rcases findF_mem c x m h with ⟨h1, h2⟩
      exact ⟨h1, Or.inr h2⟩
theorem findF_mem : ∀ (l : List TNode) (x : Str) (m : TNode),
    findF x l = some m → m.id = x ∧ OccursF m l
  | [], x, m => by simp [findF]
  | n :: rest, x, m => by
    simp only [findF]
    cases hn : findT x n with
    | some k =>
      rintro ⟨rfl⟩
      rcases findT_mem n x m hn with ⟨h1, h2⟩
      exact ⟨h1, Or.inl h2⟩
    | none =>
      intro h
      rcases findF_mem rest x m h with ⟨h1, h2⟩
      exact ⟨h1, Or.inr h2⟩
end

mutual
theorem findT_isSome : ∀ (n : TNode) (x : Str), x ∈ idsT n → (findT x n).isSome
  | .mk i t d c e, x => by
    intro hx
    simp only [findT]
    split
    · simp
    · simp only [idsT, List.mem_cons] at hx
      rcases hx with hx | hx
      · exact absurd hx.symm ‹¬ i = x›
      · exact findF_isSome c x hx
theorem findF_isSome : ∀ (l : List TNode) (x : Str), x ∈ idsF l → (findF x l).isSome
  | [], x => by simp [idsF]
  | n :: rest, x => by
    intro hx
    simp only [idsF, List.mem_append] at hx
    simp only [findF]
    cases hn : findT x n with
    | some k => simp
    | none =>
      rcases hx with hx | hx
      · have := findT_isSome n x hx
        simp [hn] at this
      · exact findF_isSome rest x hx
end

theorem findF_eq_none {l : List TNode} {x : Str} (h : findF x l = none) :
    x ∉ idsF l := by
  intro hx
  have := findF_isSome l x hx
  simp [h] at this

mutual
theorem occursT_id_mem : ∀ (n m : TNode), OccursT m n → m.id ∈ idsT n
  | .mk i t d c e, m => by
    intro hocc
    rcases hocc with rfl | hocc
    · simp [idsT]
    · simp only [idsT, List.mem_cons]
      exact Or.inr (occursF_id_mem c m hocc)
theorem occursF_id_mem : ∀ (l : List TNode) (m : TNode), OccursF m l → m.id ∈ idsF l
  | [], m => fun hocc => hocc.elim
  | n :: rest, m => by
    intro hocc
    simp only [idsF, List.mem_append]
    rcases hocc with hocc | hocc
    · exact Or.inl (occursT_id_mem n m hocc)
    · exact Or.inr (occursF_id_mem rest m hocc)
end

theorem findF_mem_ids {l : List TNode} {x : Str} {m : TNode}
    (h : findF x l = some m) : x ∈ idsF l := by
  rcases findF_mem l x m h with ⟨h1, h2⟩
  subst h1
  exact occursF_id_mem l m h2

mutual
theorem occursT_ids_sublist : ∀ (n m : TNode), OccursT m n →
    List.Sublist (idsT m) (idsT n)
  | .mk i t d c e, m => by
    intro hocc
    rcases hocc with rfl | hocc
    · exact List.Sublist.refl _
    · simp only [idsT]
      exact (occursF_ids_sublist c m hocc).cons _
theorem occursF_ids_sublist : ∀ (l : List TNode) (m : TNode),
    OccursF m l → List.Sublist (idsT m) (idsF l)
  | [], m => fun hocc => hocc.elim
  | n :: rest, m => by
    intro hocc
    simp only [idsF]
    rcases hocc with hocc | hocc
    · exact (occursT_ids_sublist n m hocc).trans (List.sublist_append_left _ _)
    · exact (occursF_ids_sublist rest m hocc).trans (List.sublist_append_right _ _)
end

mutual
theorem isDescT_iff : ∀ (n : TNode) (x : Str), isDescT x n = true ↔ x ∈ idsT n
  | .mk i t d c e, x => by
    simp only [isDescT, idsT, Bool.or_eq_true, decide_eq_true_eq, List.mem_cons]
    exact or_congr (by constructor <;> (intro h; exact h.symm)) (isDescF_iff c x)
theorem isDescF_iff : ∀ (l : List TNode) (x : Str), isDescF x l = true ↔ x ∈ idsF l
  | [], x => by simp [isDescF, idsF]
  | n :: rest, x => by
    simp only [isDescF, idsF, Bool.or_eq_true, List.mem_append]
    exact or_congr (isDescT_iff n x) (isDescF_iff rest x)
end

mutual
theorem removeT_not_mem : ∀ (n : TNode) (x : Str), x ∉ idsT n → removeT x n = n
  | .mk i t d c e, x => by
    intro hx
    simp only [idsT, List.mem_cons, not_or] at hx
    simp only [removeT, TNode.children_mk]
    rw [removeF_not_mem c x hx.2]
theorem removeF_not_mem : ∀ (l : List TNode) (x : Str), x ∉ idsF l → removeF x l = l
  | [], x => fun _ => rfl
  | .mk i t d c e :: rest, x => by
    intro hx
    simp only [idsF, idsT, List.mem_append, List.mem_cons, not_or] at hx
    obtain ⟨⟨hxi, hxc⟩, hxr⟩ := hx
    have hne : ¬ i = x := fun h => hxi h.symm
    simp only [removeF, if_neg hne]
    rw [removeF_not_mem rest x hxr]
    have h1 : removeT x (.mk i t d c e) = .mk i t d c e := by
      apply removeT_not_mem
      simp only [idsT, List.mem_cons, not_or]
      exact ⟨hxi, hxc⟩
    rw [h1]
end

mutual
theorem setTextT_not_mem : ∀ (n : TNode) (x nt : Str), x ∉ idsT n →
    setTextT x nt n = n
  | .mk i t d c e, x, nt => by
    intro hx
    simp only [idsT, List.mem_cons, not_or] at hx
    have hne : ¬ i = x := fun h => hx.1 h.symm
    simp only [setTextT, if_neg hne]
    rw [setTextF_not_mem c x nt hx.2]
theorem setTextF_not_mem : ∀ (l : List TNode) (x nt : Str), x ∉ idsF l →
    setTextF x nt l = l
  | [], x, nt => fun _ => rfl
  | n :: rest, x, nt => by
    intro hx
    simp only [idsF, List.mem_append, not_or] at hx
    simp only [setTextF]
    rw [setTextT_not_mem n x nt hx.1, setTextF_not_mem rest x nt hx.2]
end

mutual
theorem addChildT_not_mem : ∀ (n : TNode) (x : Str) (now : Nat), x ∉ idsT n →
    addChildT x now n = n
  | .mk i t d c e, x, now => by
    intro hx
    simp only [idsT, List.mem_cons, not_or] at hx
    have hne : ¬ i = x := fun h => hx.1 h.symm
    simp only [addChildT, if_neg hne]
    rw [addChildF_not_mem c x now hx.2]
theorem addChildF_not_mem : ∀ (l : List TNode) (x : Str) (now : Nat), x ∉ idsF l →
    addChildF x now l = l
  | [], x, now => fun _ => rfl
  | n :: rest, x, now => by
    intro hx
    simp only [idsF, List.mem_append, not_or] at hx
    simp only [addChildF]
    rw [addChildT_not_mem n x now hx.1, addChildF_not_mem rest x now hx.2]
end

mutual
theorem updT_ids : ∀ (n : TNode) (dd : Nat), idsT (updT dd n) = idsT n
  | .mk i t d c e, dd => by
    simp only [updT, idsT]
    rw [updF_ids c (dd + 1)]
theorem updF_ids : ∀ (l : List TNode) (dd : Nat), idsF (updF dd l) = idsF l
  | [], dd => rfl
  | n :: rest, dd => by
    simp only [updF, idsF]
    rw [updT_ids n dd, updF_ids rest dd]
end

mutual
theorem updT_depthsFrom : ∀ (n : TNode) (dd : Nat),
    depthsFromT dd (updT dd n) = true
  | .mk i t d c e, dd => by
    simp only [updT, depthsFromT, Bool.and_eq_true, decide_eq_true_eq]
    exact ⟨by simp, updF_depthsFrom c (dd + 1)⟩
theorem updF_depthsFrom : ∀ (l : List TNode) (dd : Nat),
    depthsFromF dd (updF dd l) = true
  | [], dd => rfl
  | n :: rest, dd => by
    simp only [updF, depthsFromF, Bool.and_eq_true]
    exact ⟨updT_depthsFrom n dd, updF_depthsFrom rest dd⟩
end

theorem nodupF_cons {n : TNode} {rest : List TNode}
    (h : (idsF (n :: rest)).Nodup) :
    (idsT n).Nodup ∧ (idsF rest).Nodup ∧ (idsT n).Disjoint (idsF rest) := by
  have h2 : (idsT n ++ idsF rest).Nodup := by simpa [idsF] using h
  rw [List.nodup_append] at h2
  exact h2

theorem nodupT_parts {i t : Str} {d : Nat} {c : List TNode} {e : Bool}
    (h : (idsT (TNode.mk i t d c e)).Nodup) :
    i ∉ idsF c ∧ (idsF c).Nodup := by
  simpa [idsT, List.nodup_cons] using h

theorem findF_eq_none_of_not_mem {l : List TNode} {x : Str}
    (h : x ∉ idsF l) : findF x l = none := by
  cases hf : findF x l with
  | none => rfl
  | some m => exact absurd (findF_mem_ids hf) h

mutual
theorem removeT_ids_sublist : ∀ (n : TNode) (x : Str),
    List.Sublist (idsT (removeT x n)) (idsT n)
  | .mk i t d c e, x => by
    simp only [removeT, TNode.children_mk, idsT, TNode.id_mk]
    exact (removeF_ids_sublist c x).cons₂ _
theorem removeF_ids_sublist : ∀ (l : List TNode) (x : Str),
    List.Sublist (idsF (removeF x l)) (idsF l)
  | [], x => List.Sublist.refl _
  | .mk i t d c e :: rest, x => by
    simp only [removeF, idsF]
    split
    · exact (removeF_ids_sublist rest x).trans (List.sublist_append_right _ _)
    · simp only [idsF]
      exact List.Sublist.append (removeT_ids_sublist _ x) (removeF_ids_sublist rest x)
end

theorem infoT_fst_mem {n : TNode} {p : Str × Str × Nat} (h : p ∈ infoT n) :
    p.1 ∈ idsT n := by
  rw [← info_fst_T]
  exact List.mem_map_of_mem _ h

theorem infoF_fst_mem {l : List TNode} {p : Str × Str × Nat} (h : p ∈ infoF l) :
    p.1 ∈ idsF l := by
  rw [← info_fst_F]
  exact List.mem_map_of_mem _ h

theorem remove_info_F : ∀ (l : List TNode) (x : Str) (n : TNode),
    (idsF l).Nodup → findF x l = some n →
    infoF (removeF x l) =
      (infoF l).filter (fun p => decide (p.1 ∉ idsT n))
  | [], x, n => by simp [findF]
  | .mk i t d c e :: rest, x, n => by
    intro hnd hf
    obtain ⟨hndT, hndR, hdisj⟩ := nodupF_cons hnd
    obtain ⟨hic, hndc⟩ := nodupT_parts hndT
    rw [infoF, List.filter_append]
    simp only [findF, findT] at hf
    by_cases hix : i = x
    · rw [if_pos hix] at hf
      injection hf with hf
      have hxr : x ∉ idsF rest := fun hm => hdisj (by simp [idsT, hix]) hm
      rw [removeF, if_pos hix, removeF_not_mem rest x hxr]
      have h1 : (infoT (TNode.mk i t d c e)).filter
          (fun p => decide (p.1 ∉ idsT n)) = [] := by
        rw [List.filter_eq_nil_iff]
        intro p hp
        rw [← hf]
        simpa using infoT_fst_mem hp
      have h2 : (infoF rest).filter
          (fun p => decide (p.1 ∉ idsT n)) = infoF rest := by
        rw [List.filter_eq_self]
        intro p hp
        rw [← hf]
        simpa using fun hmem => hdisj hmem (infoF_fst_mem hp)
      rw [h1, h2, List.nil_append]
    · rw [if_neg hix] at hf
      rw [removeF, if_neg hix]
      cases hc : findF x c with
      | some m =>
        rw [hc] at hf
        have hmn : m = n := by injection hf
        rw [hmn] at hc
        have hsub : List.Sublist (idsT n) (idsF c) := by
          rcases findF_mem c x n hc with ⟨_, hocc⟩
          exact occursF_ids_sublist c n hocc
        have hxc : x ∈ idsF c := findF_mem_ids hc
        have hxr : x ∉ idsF rest := by
          intro hm
          have : x ∈ idsT (TNode.mk i t d c e) := by
            simp only [idsT, List.mem_cons]
            exact Or.inr hxc
          exact hdisj this hm
        rw [removeF_not_mem rest x hxr, infoF]
        have hhead : infoT (removeT x (TNode.mk i t d c e)) =
            (i, t, d) :: infoF (removeF x c) := by
          simp [removeT, infoT]
        rw [hhead]
        have hfilT : (infoT (TNode.mk i t d c e)).filter
            (fun p => decide (p.1 ∉ idsT n)) =
            (i, t, d) :: (infoF c).filter (fun p => decide (p.1 ∉ idsT n)) := by
          rw [infoT_eq]
          simp only [List.filter_cons]
          rw [if_pos]
          · rfl
          · simp only [decide_eq_true_eq, TNode.id_mk, TNode.text_mk, TNode.depth_mk]
            exact fun hmem => hic (hsub.subset hmem)
        have hfilR : (infoF rest).filter
            (fun p => decide (p.1 ∉ idsT n)) = infoF rest := by
          rw [List.filter_eq_self]
          intro p hp
          simp only [decide_eq_true_eq]
          intro hmem
          have hin : p.1 ∈ idsT (TNode.mk i t d c e) := by
            simp only [idsT, List.mem_cons]
            exact Or.inr (hsub.subset hmem)
          exact hdisj hin (infoF_fst_mem hp)
        rw [hfilT, hfilR, remove_info_F c x n hndc hc]
      | none =>
        rw [hc] at hf
        have hxc : x ∉ idsF c := findF_eq_none hc
        have hxT : x ∉ idsT (TNode.mk i t d c e) := by
          simp only [idsT, List.mem_cons, not_or]
          exact ⟨fun h => hix h.symm, hxc⟩
        rw [removeT_not_mem _ x hxT, infoF]
        have hsubR : List.Sublist (idsT n) (idsF rest) := by
          rcases findF_mem rest x n hf with ⟨_, hocc⟩
          exact occursF_ids_sublist rest n hocc
        have hfilT : (infoT (TNode.mk i t d c e)).filter
            (fun p => decide (p.1 ∉ idsT n)) = infoT (TNode.mk i t d c e) := by
          rw [List.filter_eq_self]
          intro p hp
          simp only [decide_eq_true_eq]
          intro hmem
          exact hdisj (infoT_fst_mem hp) (hsubR.subset hmem)
        rw [hfilT, remove_info_F rest x n hndR hf]

theorem map_fst_filter {γ : Type} (p : Str → Bool) (l : List (Str × γ)) :
    (l.filter (fun q => p q.1)).map (fun q => q.1)
      = (l.map (fun q => q.1)).filter p := by
  induction l with
  | nil => rfl
  | cons h rest ih =>
    by_cases hp : p h.1 = true
    · simp [List.filter_cons, hp, ih]
    · simp only [Bool.not_eq_true] at hp
      simp [List.filter_cons, hp, ih]

theorem remove_ids_F {l : List TNode} {x : Str} {n : TNode}
    (hnd : (idsF l).Nodup) (hf : findF x l = some n) :
    idsF (removeF x l) = (idsF l).filter (fun y => decide (y ∉ idsT n)) := by
  have h1 := remove_info_F l x n hnd hf
  have h2 := congrArg (List.map (fun q : Str × Str × Nat => q.1)) h1
  rw [info_fst_F] at h2
  rw [h2, map_fst_filter (fun y => decide (y ∉ idsT n)) (infoF l), info_fst_F]

theorem remove_ids_nodup {l : List TNode} {x : Str} {n : TNode}
    (hnd : (idsF l).Nodup) (hf : findF x l = some n) :
    (idsF (removeF x l)).Nodup := by
  rw [remove_ids_F hnd hf]
  exact hnd.filter _

theorem remove_ids_disjoint {l : List TNode} {x : Str} {n : TNode}
    (hnd : (idsF l).Nodup) (hf : findF x l = some n) :
    ∀ y ∈ idsF (removeF x l), y ∉ idsT n := by
  intro y hy
  rw [remove_ids_F hnd hf] at hy
  simpa using (List.mem_filter.mp hy).2

theorem findF_removeF : ∀ (l : List TNode) (s t : Str) (sn tn : TNode),
    (idsF l).Nodup → findF s l = some sn → findF t l = some tn →
    t ∉ idsT sn → findF t (removeF s l) = some (removeT s tn)
  | [], s, t, sn, tn => by simp [findF]
  | .mk i τ d c e :: rest, s, t, sn, tn => by
    intro hnd hs ht hts
    obtain ⟨hndT, hndR, hdisj⟩ := nodupF_cons hnd
    obtain ⟨hic, hndc⟩ := nodupT_parts hndT
    simp only [findF, findT] at hs ht
    by_cases his : i = s
    · rw [if_pos his] at hs
      injection hs with hs
      have htne : ¬ i = t := by
        intro hit
        apply hts
        rw [← hs, ← hit]
        simp [idsT]
      rw [if_neg htne] at ht
      have htc : findF t c = none := by
        cases hfc : findF t c with
        | none => rfl
        | some m =>
          exfalso
          apply hts
          rw [← hs]
          simp only [idsT, List.mem_cons]
          exact Or.inr (findF_mem_ids hfc)
      rw [htc] at ht
      have hsr : s ∉ idsF rest := by
        intro hm
        exact hdisj (by simp [idsT, his]) hm
      rw [removeF, if_pos his, removeF_not_mem rest s hsr]
      have hstn : s ∉ idsT tn := by
        intro hm
        have hsubR : List.Sublist (idsT tn) (idsF rest) := by
          rcases findF_mem rest t tn ht with ⟨_, hocc⟩
          exact occursF_ids_sublist rest tn hocc
        exact hsr (hsubR.subset hm)
      rw [removeT_not_mem tn s hstn]
      exact ht
    · rw [if_neg his] at hs
      rw [removeF, if_neg his]
      have hrmT : removeT s (TNode.mk i τ d c e)
          = TNode.mk i τ d (removeF s c) e := rfl
      rw [hrmT]
      cases hsc : findF s c with
      | some m =>
        rw [hsc] at hs
        have hmn : m = sn := by injection hs
        rw [hmn] at hsc
        have hsc_mem : s ∈ idsF c := findF_mem_ids hsc
        have hsr : s ∉ idsF rest := by
          intro hm
          exact hdisj (by simp only [idsT, List.mem_cons]; exact Or.inr hsc_mem) hm
        rw [removeF_not_mem rest s hsr]
        by_cases hit : i = t
        · rw [if_pos hit] at ht
          injection ht with ht
          simp only [findF, findT, TNode.id_mk]
          rw [if_pos hit]
          have htn : TNode.mk i τ d (removeF s c) e = removeT s tn := by
            rw [← ht, hrmT]
          exact congrArg some htn
        · rw [if_neg hit] at ht
          cases htc : findF t c with
          | some m2 =>
            rw [htc] at ht
            have hm2 : m2 = tn := by injection ht
            rw [hm2] at htc
            have hrec := findF_removeF c s t sn tn hndc hsc htc hts
            simp only [findF, findT, TNode.id_mk]
            rw [if_neg hit, hrec]
          | none =>
            rw [htc] at ht
            have htcn : t ∉ idsF c := findF_eq_none htc
            have htrm : t ∉ idsF (removeF s c) := fun hm =>
              htcn ((removeF_ids_sublist c s).subset hm)
            simp only [findF, findT, TNode.id_mk]
            rw [if_neg hit, findF_eq_none_of_not_mem htrm]
            have hstn : s ∉ idsT tn := by
              intro hm
              have hsubR : List.Sublist (idsT tn) (idsF rest) := by
                rcases findF_mem rest t tn ht with ⟨_, hocc⟩
                exact occursF_ids_sublist rest tn hocc
              exact hsr (hsubR.subset hm)
            rw [removeT_not_mem tn s hstn]
            exact ht
      | none =>
        rw [hsc] at hs
        have hscn : s ∉ idsF c := findF_eq_none hsc
        rw [removeF_not_mem c s hscn]
        by_cases hit : i = t
        · rw [if_pos hit] at ht
          injection ht with ht
          simp only [findF, findT, TNode.id_mk]
          rw [if_pos hit]
          have hstn : s ∉ idsT tn := by
            rw [← ht]
            simp only [idsT, List.mem_cons, not_or]
            exact ⟨fun h => his h.symm, hscn⟩
          rw [removeT_not_mem tn s hstn]
          exact congrArg some ht
        · rw [if_neg hit] at ht
          cases htc : findF t c with
          | some m2 =>
            rw [htc] at ht
            have hm2 : m2 = tn := by injection ht
            rw [hm2] at htc
            simp only [findF, findT, TNode.id_mk]
            rw [if_neg hit, htc]
            have hstn : s ∉ idsT tn := by
              intro hm
              have hsubC : List.Sublist (idsT tn) (idsF c) := by
                rcases findF_mem c t tn htc with ⟨_, hocc⟩
                exact occursF_ids_sublist c tn hocc
              exact hscn (hsubC.subset hm)
            rw [removeT_not_mem tn s hstn]
          | none =>
            rw [htc] at ht
            simp only [findF, findT, TNode.id_mk]
            rw [if_neg hit, htc]
            exact findF_removeF rest s t sn tn hndR hs ht hts

theorem idsF_singleton (n : TNode) : idsF [n] = idsT n := by
  simp [idsF]

theorem mem_ids_of_mem_children {c : List TNode} {m : TNode} (h : m ∈ c) :
    m.id ∈ idsF c := by
  induction c with
  | nil => cases h
  | cons k rest ih =>
    simp only [idsF, List.mem_append]
    rcases List.mem_cons.mp h with h | h
    · left
      rw [h, idsT_eq]
      simp
    · exact Or.inr (ih h)

theorem findIdx?_id_eq_none {c : List TNode} {t : Str} (h : t ∉ idsF c) :
    c.findIdx? (fun m => decide (m.id = t)) = none := by
  rw [List.findIdx?_eq_none_iff]
  intro m hm
  simp only [decide_eq_false_iff_not]
  intro he
  exact h (he ▸ mem_ids_of_mem_children hm)

theorem spliceIn_ids (k : Nat) (a : TNode) (l : List TNode) :
    idsF (spliceIn k a l) = idsF (l.take k) ++ idsT a ++ idsF (l.drop k) := by
  simp only [spliceIn, idsF_append, idsF]
  rw [List.append_assoc]

theorem spliceIn_ids_perm (k : Nat) (a : TNode) (l : List TNode) :
    (idsF (spliceIn k a l)).Perm (idsT a ++ idsF l) := by
  rw [spliceIn_ids, List.append_assoc]
  refine List.perm_append_comm.trans ?_
  rw [List.append_assoc]
  refine (List.Perm.append_left _ List.perm_append_comm).trans ?_
  rw [← idsF_append, List.take_append_drop]

mutual
theorem insertNodeT_not_mem : ∀ (n : TNode) (t2 : Str) (nn : TNode)
    (pos : DropPosition), t2 ∉ idsT n → insertNodeT t2 nn pos n = n
  | .mk i τ d c e, t2, nn, pos => by
    intro hx
    simp only [idsT, List.mem_cons, not_or] at hx
    have hne : ¬ (i = t2 ∧ pos = .child) := fun h => hx.1 h.1.symm
    have hrec : insertNodeF t2 nn pos c = c := insertNodeF_not_mem c t2 nn pos hx.2
    rw [insertNodeT.eq_def]
    dsimp only
    rw [if_neg hne]
    by_cases hce : c.isEmpty
    · rw [if_pos hce]
    · rw [if_neg hce, findIdx?_id_eq_none hx.2]
      cases pos <;> simp [hrec]
theorem insertNodeF_not_mem : ∀ (l : List TNode) (t2 : Str) (nn : TNode)
    (pos : DropPosition), t2 ∉ idsF l → insertNodeF t2 nn pos l = l
  | [], t2, nn, pos => fun _ => rfl
  | n :: rest, t2, nn, pos => by
    intro hx
    simp only [idsF, List.mem_append, not_or] at hx
    rw [insertNodeF, insertNodeT_not_mem n t2 nn pos hx.1,
      insertNodeF_not_mem rest t2 nn pos hx.2]
end

theorem spliceIn_ids_mem {k : Nat} {a : TNode} {l : List TNode} {y : Str}
    (h : y ∈ idsF (spliceIn k a l)) : y ∈ idsT a ∨ y ∈ idsF l := by
  have := (spliceIn_ids_perm k a l).mem_iff.mp h
  simpa using this

mutual
theorem insertNodeT_ids_sub : ∀ (n : TNode) (t2 : Str) (nn : TNode)
    (pos : DropPosition) (y : Str),
    y ∈ idsT (insertNodeT t2 nn pos n) → y ∈ idsT n ∨ y ∈ idsT nn
  | .mk i τ d c e, t2, nn, pos, y => by
    rw [insertNodeT.eq_def]
    dsimp only
    by_cases h1 : i = t2 ∧ pos = .child
    · rw [if_pos h1]
      intro hy
      simp only [idsT, List.mem_cons, idsF_append, idsF_singleton, updT_ids,
        List.mem_append] at hy
      rcases hy with hy | hy | hy
      · exact Or.inl (by simp [idsT, hy])
      · exact Or.inl (by simp only [idsT, List.mem_cons]; exact Or.inr hy)
      · exact Or.inr hy
    · rw [if_neg h1]
      by_cases hce : c.isEmpty
      · rw [if_pos hce]
        exact fun hy => Or.inl hy
      · rw [if_neg hce]
        have hrec : ∀ hy2 : y ∈ idsT (TNode.mk i τ d (insertNodeF t2 nn pos c) e),
            y ∈ idsT (TNode.mk i τ d c e) ∨ y ∈ idsT nn := by
          intro hy2
          simp only [idsT, List.mem_cons] at hy2
          rcases hy2 with hy2 | hy2
          · exact Or.inl (by simp [idsT, hy2])
          · rcases insertNodeF_ids_sub c t2 nn pos y hy2 with hy3 | hy3
            · exact Or.inl (by simp only [idsT, List.mem_cons]; exact Or.inr hy3)
            · exact Or.inr hy3
        have hsplice : ∀ (k : Nat) (dd : Nat),
            y ∈ idsT (TNode.mk i τ d (spliceIn k (updT dd nn) c) e) →
            y ∈ idsT (TNode.mk i τ d c e) ∨ y ∈ idsT nn := by
          intro k dd hy2
          simp only [idsT, List.mem_cons] at hy2
          rcases hy2 with hy2 | hy2
          · exact Or.inl (by simp [idsT, hy2])
          · rcases spliceIn_ids_mem hy2 with hy3 | hy3
            · rw [updT_ids] at hy3
              exact Or.inr hy3
            · exact Or.inl (by simp only [idsT, List.mem_cons]; exact Or.inr hy3)
        cases hidx : c.findIdx? (fun m => decide (m.id = t2)) with
        | some ci =>
          cases pos with
          | before => exact hsplice ci _
          | after => exact hsplice (ci + 1) _
          | child => exact hrec
        | none => cases pos <;> exact hrec
theorem insertNodeF_ids_sub : ∀ (l : List TNode) (t2 : Str) (nn : TNode)
    (pos : DropPosition) (y : Str),
    y ∈ idsF (insertNodeF t2 nn pos l) → y ∈ idsF l ∨ y ∈ idsT nn
  | [], t2, nn, pos, y => by
    intro hy
    exact Or.inl hy
  | n :: rest, t2, nn, pos, y => by
    intro hy
    rw [insertNodeF] at hy
    simp only [idsF, List.mem_append] at hy ⊢
    rcases hy with hy | hy
    · rcases insertNodeT_ids_sub n t2 nn pos y hy with hy2 | hy2
      · exact Or.inl (Or.inl hy2)
      · exact Or.inr hy2
    · rcases insertNodeF_ids_sub rest t2 nn pos y hy with hy2 | hy2
      · exact Or.inl (Or.inr hy2)
      · exact Or.inr hy2
end

theorem nodup_swap_parts {A B : List Str} {i : Str}
    (h : ((i :: A) ++ B).Nodup) : (i :: (B ++ A)).Nodup := by
  rw [List.cons_append] at h
  refine (List.Perm.cons i List.perm_append_comm).nodup h

mutual
theorem insertNodeT_nodup : ∀ (n : TNode) (t2 : Str) (nn : TNode)
    (pos : DropPosition), (idsT n ++ idsT nn).Nodup →
    (idsT (insertNodeT t2 nn pos n)).Nodup
  | .mk i τ d c e, t2, nn, pos => by
    intro hnd
    have hnd2 : (i :: (idsF c ++ idsT nn)).Nodup := by
      simpa [idsT, List.cons_append] using hnd
    have hiC : i ∉ idsF c := fun hm =>
      (List.nodup_cons.mp hnd2).1 (List.mem_append.mpr (Or.inl hm))
    have hiN : i ∉ idsT nn := fun hm =>
      (List.nodup_cons.mp hnd2).1 (List.mem_append.mpr (Or.inr hm))
    have hndCN : (idsF c ++ idsT nn).Nodup := (List.nodup_cons.mp hnd2).2
    rw [insertNodeT.eq_def]
    dsimp only
    by_cases h1 : i = t2 ∧ pos = .child
    · rw [if_pos h1]
      simp only [idsT, idsF_append, idsF_singleton, updT_ids]
      rw [← List.cons_append]
      simpa [idsT, List.cons_append] using hnd
    · rw [if_neg h1]
      by_cases hce : c.isEmpty
      · rw [if_pos hce]
        exact hnd.sublist (List.sublist_append_left _ _)
      · rw [if_neg hce]
        have hrec : (idsT (TNode.mk i τ d (insertNodeF t2 nn pos c) e)).Nodup := by
          simp only [idsT]
          rw [List.nodup_cons]
          constructor
          · intro hm
            rcases insertNodeF_ids_sub c t2 nn pos i hm with hm2 | hm2
            · exact hiC hm2
            · exact hiN hm2
          · exact insertNodeF_nodup c t2 nn pos hndCN
        have hsplice : ∀ (k : Nat) (dd : Nat),
            (idsT (TNode.mk i τ d (spliceIn k (updT dd nn) c) e)).Nodup := by
          intro k dd
          simp only [idsT]
          have hperm : (idsF (spliceIn k (updT dd nn) c)).Perm
              (idsT nn ++ idsF c) := by
            have := spliceIn_ids_perm k (updT dd nn) c
            rwa [updT_ids] at this
          have hperm2 : (i :: (idsF c ++ idsT nn)).Perm
              (i :: idsF (spliceIn k (updT dd nn) c)) :=
            List.Perm.cons i (List.perm_append_comm.trans hperm.symm)
          exact hperm2.nodup hnd2
        cases hidx : c.findIdx? (fun m => decide (m.id = t2)) with
        | some ci =>
          cases pos with
          | before => exact hsplice ci _
          | after => exact hsplice (ci + 1) _
          | child => exact hrec
        | none => cases pos <;> exact hrec
theorem insertNodeF_nodup : ∀ (l : List TNode) (t2 : Str) (nn : TNode)
    (pos : DropPosition), (idsF l ++ idsT nn).Nodup →
    (idsF (insertNodeF t2 nn pos l)).Nodup
  | [], t2, nn, pos => by
    intro hnd
    simp [insertNodeF, idsF]
  | n :: rest, t2, nn, pos => by
    intro hnd
    have hshape : ((idsT n ++ idsF rest) ++ idsT nn).Nodup := by
      simpa [idsF] using hnd
    have hndN : (idsT n).Nodup :=
      hshape.sublist ((List.sublist_append_left _ _).trans
        (List.sublist_append_left _ _))
    have hndR : (idsF rest).Nodup :=
      hshape.sublist ((List.sublist_append_right _ _).trans
        (List.sublist_append_left _ _))
    have hdisjNR : ∀ y ∈ idsT n, y ∉ idsF rest := by
      intro y hy hyr
      have h3 := (List.nodup_append.mp
        ((List.nodup_append.mp hshape).1)).2.2
      exact h3 hy hyr
    have hdisjC : ∀ y, y ∈ idsT n ∨ y ∈ idsF rest → y ∉ idsT nn := by
      intro y hy hyn
      have h3 := (List.nodup_append.mp hshape).2.2
      exact h3 (List.mem_append.mpr hy) hyn
    rw [insertNodeF]
    simp only [idsF]
    rw [List.nodup_append]
    by_cases ht : t2 ∈ idsT n
    · have htr : t2 ∉ idsF rest := hdisjNR t2 ht
      rw [insertNodeF_not_mem rest t2 nn pos htr]
      refine ⟨?_, hndR, ?_⟩
      · apply insertNodeT_nodup
        refine hshape.sublist ?_
        exact List.Sublist.append (List.sublist_append_left _ _)
          (List.Sublist.refl _)
      · intro y hy hyr
        rcases insertNodeT_ids_sub n t2 nn pos y hy with hy2 | hy2
        · exact hdisjNR y hy2 hyr
        · exact hdisjC y (Or.inr hyr) hy2
    · rw [insertNodeT_not_mem n t2 nn pos ht]
      refine ⟨hndN, ?_, ?_⟩
      · apply insertNodeF_nodup
        refine hshape.sublist ?_
        rw [List.append_assoc]
        exact List.sublist_append_right _ _
      · intro y hy hyr
        rcases insertNodeF_ids_sub rest t2 nn pos y hyr with hy2 | hy2
        · exact hdisjNR y hy hy2
        · exact hdisjC y (Or.inl hy) hy2
end

mutual
theorem insertNodeT_child_occurs : ∀ (n : TNode) (t2 : Str) (nn tn : TNode),
    findT t2 n = some tn →
    OccursT (TNode.mk tn.id tn.text tn.depth
        (tn.children ++ [updT (tn.depth + 1) nn]) true)
      (insertNodeT t2 nn .child n)
  | .mk i τ d c e, t2, nn, tn => by
    intro hf
    rw [findT] at hf
    by_cases hit : i = t2
    · rw [if_pos hit] at hf
      injection hf with hf
      rw [insertNodeT.eq_def]
      dsimp only
      rw [if_pos ⟨hit, rfl⟩]
      rw [← hf]
      exact Or.inl rfl
    · rw [if_neg hit] at hf
      have hcne : ¬ c.isEmpty := by
        cases c with
        | nil => simp [findF] at hf
        | cons a b => simp
      rw [insertNodeT.eq_def]
      dsimp only
      rw [if_neg (fun h => hit h.1), if_neg hcne]
      have hrec := insertNodeF_child_occurs c t2 nn tn hf
      cases hidx : c.findIdx? (fun m => decide (m.id = t2)) with
      | some ci => exact Or.inr hrec
      | none => exact Or.inr hrec
theorem insertNodeF_child_occurs : ∀ (l : List TNode) (t2 : Str) (nn tn : TNode),
    findF t2 l = some tn →
    OccursF (TNode.mk tn.id tn.text tn.depth
        (tn.children ++ [updT (tn.depth + 1) nn]) true)
      (insertNodeF t2 nn .child l)
  | [], t2, nn, tn => by simp [findF]
  | n :: rest, t2, nn, tn => by
    intro hf
    rw [findF] at hf
    rw [insertNodeF]
    cases hn : findT t2 n with
    | some m =>
      rw [hn] at hf
      have hm : m = tn := by injection hf
      rw [hm] at hn
      exact Or.inl (insertNodeT_child_occurs n t2 nn tn hn)
    | none =>
      rw [hn] at hf
      exact Or.inr (insertNodeF_child_occurs rest t2 nn tn hf)
end

theorem acycF_of_nodup {l : List TNode} (hnd : (idsF l).Nodup) : acycF l := by
  intro n hocc hmem
  have hsub := occursF_ids_sublist l n hocc
  have hndT : (idsT n).Nodup := hnd.sublist hsub
  rw [idsT_eq, List.nodup_cons] at hndT
  exact hndT.1 hmem

theorem moveNode_ids_nodup (nodes : List TNode) (s t : Str)
    (pos : DropPosition) (hnd : (idsF nodes).Nodup) :
    (idsF (moveNode nodes s t pos)).Nodup := by
  rw [moveNode]
  by_cases hst : s = t
  · rwa [if_pos hst]
  rw [if_neg hst]
  cases hfs : findF s nodes with
  | none => exact hnd
  | some sn =>
  cases hft : findF t nodes with
  | none => exact hnd
  | some tn =>
  dsimp only
  by_cases hdesc : isDescT t sn = true
  · rwa [if_pos hdesc]
  rw [if_neg hdesc]
  have hndR : (idsF (removeF s nodes)).Nodup := remove_ids_nodup hnd hfs
  have hndS : (idsT sn).Nodup := by
    rcases findF_mem nodes s sn hfs with ⟨_, hocc⟩
    exact hnd.sublist (occursF_ids_sublist nodes sn hocc)
  have hdisj : ∀ y ∈ idsF (removeF s nodes), y ∉ idsT sn :=
    remove_ids_disjoint hnd hfs
  by_cases hroot : (nodes.findIdx? (fun m => decide (m.id = t))).isSome ∧
      (pos = .before ∨ pos = .after)
  · rw [if_pos hroot]
    cases hti : (removeF s nodes).findIdx? (fun m => decide (m.id = t)) with
    | none => exact hnd
    | some ti =>
      have hperm := spliceIn_ids_perm (if pos = .before then ti else ti + 1)
        (updT 0 sn) (removeF s nodes)
      rw [updT_ids] at hperm
      refine hperm.symm.nodup ?_
      rw [List.nodup_append]
      exact ⟨hndS, hndR, fun y hy hyr => hdisj y hyr hy⟩
  · rw [if_neg hroot]
    apply insertNodeF_nodup
    rw [List.nodup_append]
    exact ⟨hndR, hndS, hdisj⟩

/-- C1: for every tree, source `s`, target `t` and drop position, the
drag-and-drop move never yields a forest in which a node's id recurs
among its own descendants (given the well-formedness invariant that ids
are unique), and a move of `s` onto itself or onto one of its own
descendants (as tested by `isDescendant`) leaves the forest structurally
identical to the input, because the drag-over validation clears the
pending drop target and the drop then changes nothing. -/
theorem C1_move_acyclic_and_guarded (nodes : List TNode) (s t : Str)
    (pos : DropPosition) (hnd : (idsF nodes).Nodup) :
    acycF (moveNode nodes s t pos)
    ∧ (s = t → moveNode nodes s t pos = nodes)
    ∧ (∀ sn, findF s nodes = some sn → isDescT t sn = true →
        moveNode nodes s t pos = nodes) := by
  refine ⟨acycF_of_nodup (moveNode_ids_nodup nodes s t pos hnd), ?_, ?_⟩
  · intro hst
    rw [moveNode, if_pos hst]
  · intro sn hfs hdesc
    rw [moveNode]
    by_cases hst : s = t
    · rw [if_pos hst]
    rw [if_neg hst, hfs]
    cases hft : findF t nodes with
    | none => rfl
    | some tn =>
      dsimp only
      rw [if_pos hdesc]

/-- C1 witness: in the forest `a[b], c` the ids are unique; moving `a`
onto its own descendant `b` returns the forest unchanged. -/
theorem C1_witness :
    moveNode
      [TNode.mk ['a'] ['A'] 0 [TNode.mk ['b'] ['B'] 1 [] true] true,
       TNode.mk ['c'] ['C'] 0 [] true] ['a'] ['b'] .child
    = [TNode.mk ['a'] ['A'] 0 [TNode.mk ['b'] ['B'] 1 [] true] true,
       TNode.mk ['c'] ['C'] 0 [] true] :=
  (C1_move_acyclic_and_guarded _ ['a'] ['b'] .child (by decide)).2.2
    (TNode.mk ['a'] ['A'] 0 [TNode.mk ['b'] ['B'] 1 [] true] true) rfl rfl

/-- C4: a valid move of source `s` onto target `t` at position `child`
places the moved subtree (the depth-recomputed copy of `s`'s subtree) as
the last child of `t`; the depth recomputation visits every node of the
subtree, giving each node depth `depth(t) + 1 + (its relative structural
depth within the original subtree)` — that is exactly
`depthsFromT (depth(t) + 1)` of the reinserted subtree — and `t`'s
expanded flag is forced to `true`. -/
theorem C4_move_child_depths (nodes : List TNode) (s t : Str)
    (sn tn : TNode) (hnd : (idsF nodes).Nodup)
    (hs : findF s nodes = some sn) (ht : findF t nodes = some tn)
    (hst : s ≠ t) (hdesc : isDescT t sn = false) :
    ∃ tn2, OccursF tn2 (moveNode nodes s t .child) ∧ tn2.id = t ∧
      tn2.isExpanded = true ∧ updT (tn.depth + 1) sn ∈ tn2.children ∧
      depthsFromT (tn.depth + 1) (updT (tn.depth + 1) sn) = true := by
  have hts : t ∉ idsT sn := by
    intro hm
    rw [← isDescT_iff sn t] at hm
    rw [hdesc] at hm
    cases hm
  have hmove : moveNode nodes s t .child
      = insertNodeF t sn .child (removeF s nodes) := by
    rw [moveNode, if_neg hst, hs, ht]
    dsimp only
    rw [if_neg (by rw [hdesc]; exact Bool.false_ne_true)]
    rw [if_neg (by rintro ⟨-, h | h⟩ <;> cases h)]
  have hfr : findF t (removeF s nodes) = some (removeT s tn) :=
    findF_removeF nodes s t sn tn hnd hs ht hts
  have hocc := insertNodeF_child_occurs (removeF s nodes) t sn
    (removeT s tn) hfr
  have htid : tn.id = t := (findF_mem nodes t tn ht).1
  cases tn with
  | mk ti tt td tc te =>
    simp only [TNode.id_mk] at htid
    refine ⟨TNode.mk ti tt td (removeF s tc ++ [updT (td + 1) sn]) true,
      ?_, ?_, ?_, ?_, ?_⟩
    · rw [hmove]
      exact hocc
    · simp only [TNode.id_mk]
      exact htid
    · rfl
    · simp only [TNode.children_mk, TNode.depth_mk]
      exact List.mem_append_right _ (List.mem_singleton.mpr rfl)
    · simp only [TNode.depth_mk]
      exact updT_depthsFrom sn (td + 1)

/-- C4 witness: moving `b` (child of `a`) onto root `c` as a child, in a
forest with unique ids; the relocated subtree sits under `c` at depth 1
with `c` expanded. -/
theorem C4_witness :
    ∃ tn2, OccursF tn2 (moveNode
        [TNode.mk ['a'] ['A'] 0 [TNode.mk ['b'] ['B'] 1
          [TNode.mk ['d'] ['D'] 2 [] true] true] true,
         TNode.mk ['c'] ['C'] 0 [] true] ['b'] ['c'] .child)
      ∧ tn2.id = ['c'] ∧ tn2.isExpanded = true
      ∧ updT (0 + 1) (TNode.mk ['b'] ['B'] 1
          [TNode.mk ['d'] ['D'] 2 [] true] true) ∈ tn2.children
      ∧ depthsFromT (0 + 1) (updT (0 + 1) (TNode.mk ['b'] ['B'] 1
          [TNode.mk ['d'] ['D'] 2 [] true] true)) = true :=
  C4_move_child_depths _ ['b'] ['c']
    (TNode.mk ['b'] ['B'] 1 [TNode.mk ['d'] ['D'] 2 [] true] true)
    (TNode.mk ['c'] ['C'] 0 [] true)
    (by decide) rfl rfl (by decide) rfl

/-- C7: when an undo is possible (`cursor > 0`, cursor in bounds) and the
displayed tree is the snapshot under the cursor (as it is after every
mutator commit), `undo` immediately followed by `redo` restores the
entire component state — the displayed tree (ids, texts, depths, order
and expansion are all part of the snapshot value) and the cursor. -/
theorem C7_undo_redo_roundtrip (s : BState) (h0 : 0 < s.index)
    (h1 : s.index < s.history.length)
    (hsync : s.nodes = s.history.getD s.index []) :
    redoOp (undoOp s) = s := by
  cases s with
  | mk nd hist i =>
    simp only at h0 h1 hsync
    rw [undoOp]
    simp only
    rw [if_pos h0]
    rw [redoOp]
    simp only
    rw [if_pos (by omega : i - 1 < hist.length - 1)]
    have hi : i - 1 + 1 = i := by omega
    rw [hi, ← hsync]

/-- C7 witness: a two-snapshot history with the cursor at 1 and the
second snapshot displayed. -/
theorem C7_witness :
    redoOp (undoOp (BState.mk [TNode.mk ['a'] ['A'] 0 [] true]
        [[], [TNode.mk ['a'] ['A'] 0 [] true]] 1))
      = BState.mk [TNode.mk ['a'] ['A'] 0 [] true]
        [[], [TNode.mk ['a'] ['A'] 0 [] true]] 1 :=
  C7_undo_redo_roundtrip _ (by decide) (by decide) rfl

/-- C5 counterexample: with the one-node forest `c` and the absent id
`z`, `handleDelete` leaves the tree structurally identical but still
pushes a snapshot: the history grows from 1 entry to 2, so the claim
that a not-found operation "does not push any snapshot onto the undo
history" is false on the code. -/
theorem C5_counterexample :
    (handleDeleteOp (initState [TNode.mk ['c'] ['C'] 0 [] true]) ['z']).nodes
      = [TNode.mk ['c'] ['C'] 0 [] true]
    ∧ (initState [TNode.mk ['c'] ['C'] 0 [] true]).history.length = 1
    ∧ (handleDeleteOp (initState [TNode.mk ['c'] ['C'] 0 [] true])
        ['z']).history.length = 2 :=
  ⟨rfl, rfl, rfl⟩

/-- C5 (amended): an operation on an id absent from the tree returns a
forest structurally identical to the input; the sibling-insert guard
(`nodeMap.get` fails) makes that operation a complete no-op, while
delete, set-text and child-insert still commit — each pushes one
(redundant) snapshot of the unchanged tree. -/
theorem C5_not_found_amended (s : BState) (x nt : Str) (now : Nat)
    (hx : x ∉ idsF s.nodes) :
    (handleDeleteOp s x).nodes = s.nodes
    ∧ handleDeleteOp s x = pushOp s s.nodes
    ∧ (handleUpdateTextOp s x nt).nodes = s.nodes
    ∧ handleUpdateTextOp s x nt = pushOp s s.nodes
    ∧ (handleAddChildOp s x now).nodes = s.nodes
    ∧ handleAddChildOp s x now = pushOp s s.nodes
    ∧ handleAddSiblingOp s x now = s := by
  have hrm : removeF x s.nodes = s.nodes := removeF_not_mem _ x hx
  have hut : handleUpdateTextNodes s.nodes x nt = s.nodes := by
    rw [handleUpdateTextNodes]
    split
    · exact hrm
    · exact setTextF_not_mem _ x nt hx
  have hac : addChildF x now s.nodes = s.nodes := addChildF_not_mem _ x now hx
  refine ⟨?_, ?_, ?_, ?_, ?_, ?_, ?_⟩
  · rw [handleDeleteOp, hrm, pushOp]
  · rw [handleDeleteOp, hrm]
  · rw [handleUpdateTextOp, hut, pushOp]
  · rw [handleUpdateTextOp, hut]
  · rw [handleAddChildOp, hac, pushOp]
  · rw [handleAddChildOp, hac]
  · rw [handleAddSiblingOp, findF_eq_none_of_not_mem hx]

/-- C5 witness: the amended statement applied to the one-node forest `c`
and the absent id `z`. -/
theorem C5_witness :
    (handleDeleteOp (initState [TNode.mk ['c'] ['C'] 0 [] true]) ['z'])
      = pushOp (initState [TNode.mk ['c'] ['C'] 0 [] true])
        [TNode.mk ['c'] ['C'] 0 [] true]
    ∧ handleAddSiblingOp (initState [TNode.mk ['c'] ['C'] 0 [] true]) ['z'] 5
      = initState [TNode.mk ['c'] ['C'] 0 [] true] :=
  ⟨(C5_not_found_amended (initState [TNode.mk ['c'] ['C'] 0 [] true])
      ['z'] ['n'] 5 (by decide)).2.1,
   (C5_not_found_amended (initState [TNode.mk ['c'] ['C'] 0 [] true])
      ['z'] ['n'] 5 (by decide)).2.2.2.2.2.2⟩

theorem applyOp_inv {s : BState} (op : HOp) (hne : s.history ≠ [])
    (hlt : s.index < s.history.length) :
    (applyOp s op).history ≠ [] ∧
    (applyOp s op).index < (applyOp s op).history.length := by
  cases op with
  | push t =>
    simp only [applyOp, pushOp, addToHistory]
    have htake : (s.history.take (s.index + 1)).length = s.index + 1 := by
      rw [List.length_take]
      omega
    have hlen2 : (s.history.take (s.index + 1) ++ [t]).length = s.index + 2 := by
      rw [List.length_append, htake, List.length_singleton]
    split
    · refine ⟨?_, ?_⟩
      · intro hnil
        have h9 := congrArg List.length hnil
        rw [List.length_drop, hlen2, List.length_nil] at h9
        omega
      · simp only [List.length_drop, hlen2]
        omega
    · refine ⟨?_, ?_⟩
      · intro hnil
        have h9 := congrArg List.length hnil
        rw [hlen2, List.length_nil] at h9
        omega
      · simp only [hlen2]
        omega
  | undo =>
    simp only [applyOp, undoOp]
    split
    · exact ⟨hne, by simp; omega⟩
    · exact ⟨hne, hlt⟩
  | redo =>
    simp only [applyOp, redoOp]
    split
    · rename_i h
      exact ⟨hne, by simp; omega⟩
    · exact ⟨hne, hlt⟩

theorem foldl_applyOp_inv (ops : List HOp) : ∀ (s : BState),
    s.history ≠ [] → s.index < s.history.length →
    (ops.foldl applyOp s).history ≠ [] ∧
    (ops.foldl applyOp s).index < (ops.foldl applyOp s).history.length := by
  induction ops with
  | nil => exact fun s h1 h2 => ⟨h1, h2⟩
  | cons op rest ih =>
    intro s h1 h2
    rw [List.foldl_cons]
    obtain ⟨h3, h4⟩ := applyOp_inv op h1 h2
    exact ih _ h3 h4

/-- C10 (implicit): starting from the initial history (one snapshot,
cursor 0), any sequence of push/undo/redo operations keeps the history
non-empty and the cursor strictly within bounds; moreover an undo at
cursor 0 and a redo at the last entry leave the whole state (history,
cursor, and displayed tree) unchanged. -/
theorem C10_history_invariant (t0 : List TNode) (ops : List HOp) :
    (ops.foldl applyOp (initState t0)).history ≠ []
    ∧ (ops.foldl applyOp (initState t0)).index
        < (ops.foldl applyOp (initState t0)).history.length
    ∧ (∀ s : BState, s.index = 0 → undoOp s = s)
    ∧ (∀ s : BState, s.index = s.history.length - 1 → redoOp s = s) := by
  obtain ⟨h1, h2⟩ := foldl_applyOp_inv ops (initState t0)
    (by simp [initState]) (by simp [initState])
  refine ⟨h1, h2, ?_, ?_⟩
  · intro s hs
    rw [undoOp, if_neg (by omega)]
  · intro s hs
    rw [redoOp, if_neg (by omega)]

/-- C10 witness: a concrete operation sequence (two pushes, undo at the
floor twice, a redo), and the boundary no-ops at a concrete state. -/
theorem C10_witness :
    (([HOp.push [], HOp.undo, HOp.undo, HOp.redo].foldl applyOp
        (initState [TNode.mk ['a'] ['A'] 0 [] true])).history ≠ []
    ∧ ([HOp.push [], HOp.undo, HOp.undo, HOp.redo].foldl applyOp
        (initState [TNode.mk ['a'] ['A'] 0 [] true])).index
        < ([HOp.push [], HOp.undo, HOp.undo, HOp.redo].foldl applyOp
        (initState [TNode.mk ['a'] ['A'] 0 [] true])).history.length)
    ∧ undoOp (initState [TNode.mk ['a'] ['A'] 0 [] true])
        = initState [TNode.mk ['a'] ['A'] 0 [] true] := by
  have h := C10_history_invariant [TNode.mk ['a'] ['A'] 0 [] true]
    [HOp.push [], HOp.undo, HOp.undo, HOp.redo]
  exact ⟨⟨h.1, h.2.1⟩, h.2.2.1 _ rfl⟩

theorem foldl_pushOp_char (t0 : List TNode) (L : List (List TNode)) :
    (L.foldl pushOp (initState t0)).history
      = (t0 :: L).drop ((t0 :: L).length - 50)
    ∧ (L.foldl pushOp (initState t0)).index
      = (L.foldl pushOp (initState t0)).history.length - 1 := by
  induction L using List.reverseRecOn with
  | nil => simp [initState]
  | append_singleton L2 p ih =>
    obtain ⟨ih1, ih2⟩ := ih
    rw [List.foldl_append, List.foldl_cons, List.foldl_nil]
    set prev := L2.foldl pushOp (initState t0) with hprev
    have hm : (t0 :: L2).length = L2.length + 1 := by simp
    have hDlen : prev.history.length = min (L2.length + 1) 50 := by
      rw [ih1, List.length_drop]
      simp only [hm]
      omega
    have hDne : prev.history.length ≠ 0 := by omega
    have htake : prev.history.take (prev.index + 1) = prev.history := by
      rw [ih2]
      have : prev.history.length - 1 + 1 = prev.history.length := by omega
      rw [this, List.take_length]
    rw [pushOp]
    simp only [addToHistory, htake]
    by_cases hcap : 50 < (prev.history ++ [p]).length
    · rw [if_pos hcap]
      rw [List.length_append, List.length_singleton] at hcap
      have hge : L2.length + 1 ≥ 50 := by omega
      constructor
      · simp only
        rw [ih1]
        have h1 : 1 ≤ ((t0 :: L2).drop ((t0 :: L2).length - 50)).length := by
          rw [List.length_drop, hm]
          omega
        rw [List.drop_append_of_le_length h1, List.drop_drop]
        have harith : (t0 :: L2 ++ [p]).length - 50
            = 1 + ((t0 :: L2).length - 50) := by
          simp only [List.length_append, List.length_cons,
            List.length_singleton, List.length_nil]
          omega
        rw [show t0 :: (L2 ++ [p]) = (t0 :: L2) ++ [p] by simp, harith]
        rw [List.drop_append_of_le_length (by simp only [hm]; omega)]
        rw [show (t0 :: L2).length - 50 + 1 = 1 + ((t0 :: L2).length - 50)
          from by omega]
      · simp only
        rw [ih2, List.length_drop, List.length_append, List.length_singleton]
        omega
    · rw [if_neg hcap]
      rw [List.length_append, List.length_singleton] at hcap
      have hlt : L2.length + 1 < 50 := by omega
      constructor
      · simp only
        rw [ih1]
        have h0a : (t0 :: L2).length - 50 = 0 := by omega
        have h0b : (t0 :: (L2 ++ [p])).length - 50 = 0 := by
          simp only [List.length_cons, List.length_append,
            List.length_singleton, List.length_nil]
          omega
        rw [h0a, h0b, List.drop_zero, List.drop_zero]
        simp
      · simp only

theorem undoOp_iterate_floor : ∀ (k : Nat) (s : BState), 0 < s.index →
    s.index ≤ k →
    (undoOp^[k] s).nodes = s.history.getD 0 []
    ∧ (undoOp^[k] s).history = s.history := by
  intro k
  induction k with
  | zero => intro s h1 h2; omega
  | succ k2 ih =>
    rintro ⟨nd, hist, i⟩ h1 h2
    simp only at h1 h2
    rw [Function.iterate_succ_apply]
    have hstep : undoOp (BState.mk nd hist i)
        = BState.mk (hist.getD (i - 1) []) hist (i - 1) := by
      rw [undoOp, if_pos h1]
    by_cases hone : i = 1
    · have hnomove : ∀ m, undoOp^[m] (undoOp (BState.mk nd hist i))
          = undoOp (BState.mk nd hist i) := by
        intro m
        apply Function.iterate_fixed
        rw [hstep]
        rw [undoOp, if_neg (by simp only; omega)]
      rw [hnomove k2, hstep]
      simp [hone]
    · rw [hstep]
      have h3 : 0 < (BState.mk (hist.getD (i - 1) []) hist (i - 1)).index := by
        simp only
        omega
      have h4 : (BState.mk (hist.getD (i - 1) []) hist (i - 1)).index ≤ k2 := by
        simp only
        omega
      obtain ⟨r1, r2⟩ := ih _ h3 h4
      rw [r1, r2]
      exact ⟨rfl, rfl⟩

/-- C6: starting from the initial one-snapshot history, any sequence of
pushes leaves at most 50 snapshots, and exactly the most recent 50 of
the states seen (initial state followed by the pushed trees, oldest
evicted first) with the cursor on the last entry; after 51 sequential
pushes, undoing repeatedly bottoms out at the 2nd-oldest pushed state
(the initial state and the very first push have been evicted). -/
theorem C6_history_capacity (t0 : List TNode) (L : List (List TNode)) :
    (L.foldl pushOp (initState t0)).history.length ≤ 50
    ∧ (L.foldl pushOp (initState t0)).history
      = (t0 :: L).drop ((t0 :: L).length - 50)
    ∧ (L.length = 51 → ∀ k, 49 ≤ k →
        (undoOp^[k] (L.foldl pushOp (initState t0))).nodes = L.getD 1 []) := by
  obtain ⟨hh, hi⟩ := foldl_pushOp_char t0 L
  have hlen : (L.foldl pushOp (initState t0)).history.length
      = min ((t0 :: L).length) 50 := by
    rw [hh, List.length_drop]
    omega
  refine ⟨by omega, hh, ?_⟩
  intro h51 k hk
  have hlen2 : (L.foldl pushOp (initState t0)).history.length = 50 := by
    rw [hlen]
    simp [h51]
  have hidx : (L.foldl pushOp (initState t0)).index = 49 := by
    rw [hi, hlen2]
  obtain ⟨r1, _⟩ := undoOp_iterate_floor k (L.foldl pushOp (initState t0))
    (by omega) (by omega)
  rw [r1, hh]
  cases L with
  | nil => simp at h51
  | cons a L2 =>
    have : (t0 :: a :: L2).length - 50 = 2 := by
      simp only [List.length_cons] at h51 ⊢
      omega
    rw [this]
    simp only [List.drop_succ_cons, List.drop_zero, List.drop_one]
    cases L2 with
    | nil => simp at h51
    | cons b L3 => simp [List.getD]

/-- C6 witness: 51 pushes of pairwise-distinct one-node forests onto the
initial empty state; 49 undos reach the floor, the 2nd-oldest push. -/
theorem C6_witness :
    (undoOp^[49] (((List.range 51).map
        (fun k => [TNode.mk [] (List.replicate k 'x') 0 [] true])).foldl
        pushOp (initState []))).nodes
      = ((List.range 51).map
        (fun k => [TNode.mk [] (List.replicate k 'x') 0 [] true])).getD 1 [] :=
  (C6_history_capacity [] _).2.2 (by simp) 49 (by omega)

theorem withChild_serLines (q p : TNode) :
    serLinesT (withChild q p) = serLinesT q ++ serLinesT p := by
  cases q with
  | mk i t d c e =>
    simp only [withChild, TNode.id_mk, TNode.text_mk, TNode.depth_mk,
      TNode.children_mk, TNode.isExpanded_mk, serLinesT, serLinesF_append]
    rw [show serLinesF [p] = serLinesT p ++ [] by simp [serLinesF]]
    simp

theorem withChild_depth (q p : TNode) : (withChild q p).depth = q.depth := by
  cases q; rfl

theorem popGEAux_ser (d : Nat) : ∀ (rs : List TNode) (r : List TNode) (p : TNode),
    serLinesF (popGEAux d r p rs).1 ++ stackSerLines (popGEAux d r p rs).2
      = serLinesF r ++ stackSerLines (p :: rs) := by
  intro rs
  induction rs with
  | nil =>
    intro r p
    simp [popGEAux, stackSerLines, serLinesF_append, serLinesF]
  | cons q rs2 ih =>
    intro r p
    rw [popGEAux]
    split
    · rw [ih r (withChild q p)]
      simp only [stackSerLines, withChild_serLines]
      simp [List.append_assoc]
    · simp only [stackSerLines, withChild_serLines]
      simp [List.append_assoc]

theorem popGE_ser (d : Nat) (r : List TNode) (st : List TNode) :
    serLinesF (popGE d r st).1 ++ stackSerLines (popGE d r st).2
      = serLinesF r ++ stackSerLines st := by
  cases st with
  | nil => simp [popGE, stackSerLines]
  | cons top rest =>
    rw [popGE]
    split
    · exact popGEAux_ser d rest r top
    · rfl

theorem popGEAux_zero_stack : ∀ (rs : List TNode) (r : List TNode) (p : TNode),
    (popGEAux 0 r p rs).2 = [] := by
  intro rs
  induction rs with
  | nil => intro r p; rfl
  | cons q rs2 ih =>
    intro r p
    rw [popGEAux, if_pos (Nat.zero_le _)]
    exact ih r (withChild q p)

theorem popGE_zero_stack (r : List TNode) (st : List TNode) :
    (popGE 0 r st).2 = [] := by
  cases st with
  | nil => rfl
  | cons top rest =>
    rw [popGE, if_pos (Nat.zero_le _)]
    exact popGEAux_zero_stack rest r top

theorem replicate_getIndent_stripTabs : ∀ (l : Str),
    List.replicate (getIndentDepth l) '\t' ++ stripTabs l = l := by
  intro l
  induction l with
  | nil => rfl
  | cons ch rest ih =>
    rw [getIndentDepth, stripTabs]
    by_cases hch : ch = '\t'
    · rw [if_pos hch, if_pos hch, List.replicate_succ, List.cons_append, ih,
        hch]
    · rw [if_neg hch, if_neg hch, List.replicate_zero, List.nil_append]

theorem lineShape_recon {l : Str} (h : lineShape l = true) :
    List.replicate (getIndentDepth l) '\t' ++ jsTrim (stripTabs l) = l := by
  rw [lineShape, Bool.and_eq_true, decide_eq_true_eq] at h
  rw [h.2]
  exact replicate_getIndent_stripTabs l

theorem dropWhile_ws_stripTabs : ∀ (l : Str),
    l.dropWhile isJsWhitespace = (stripTabs l).dropWhile isJsWhitespace := by
  intro l
  induction l with
  | nil => rfl
  | cons ch rest ih =>
    rw [stripTabs]
    by_cases hch : ch = '\t'
    · rw [if_pos hch, List.dropWhile_cons]
      rw [if_pos (by rw [hch]; rfl)]
      exact ih
    · rw [if_neg hch]

theorem jsTrim_stripTabs (l : Str) : jsTrim l = jsTrim (stripTabs l) := by
  rw [jsTrim, jsTrim, dropWhile_ws_stripTabs l]

theorem lineShape_trim_ne {l : Str} (h : lineShape l = true) :
    (!(jsTrim l).isEmpty) = true := by
  rw [lineShape, Bool.and_eq_true, decide_eq_true_eq] at h
  rw [jsTrim_stripTabs, h.2]
  exact h.1

theorem foldl_parseStep_ser (now : Nat) : ∀ (L : List (Nat × Str))
    (r s : List TNode), (∀ q ∈ L, lineShape q.2 = true) →
    serLinesF ((L.foldl (parseStep now) (r, s)).1)
      ++ stackSerLines ((L.foldl (parseStep now) (r, s)).2)
      = serLinesF r ++ stackSerLines s ++ L.map (fun q => q.2) := by
  intro L
  induction L with
  | nil =>
    intro r s hL
    simp
  | cons q L2 ih =>
    intro r s hL
    rw [List.foldl_cons]
    have hq : lineShape q.2 = true := hL q (List.mem_cons_self _ _)
    have hstep : parseStep now (r, s) q
        = ((popGE (getIndentDepth q.2) r s).1,
           TNode.mk (mkNodeId now q.1) (jsTrim (stripTabs q.2))
             (getIndentDepth q.2) [] true
             :: (popGE (getIndentDepth q.2) r s).2) := rfl
    rw [hstep, ih _ _ (fun p hp => hL p (List.mem_cons_of_mem _ hp))]
    simp only [stackSerLines, serLinesT, serLinesF, List.map_cons]
    rw [lineShape_recon hq]
    have hpop := popGE_ser (getIndentDepth q.2) r s
    rw [← List.append_assoc, hpop]
    simp [List.append_assoc]

/-- C2: for a text all of whose newline-separated lines consist of a run
of leading tabs followed by a non-blank body that trimming leaves
unchanged, serializing the parse of the text reproduces the text
exactly — in particular the lines, their leading-tab depths and their
text content all round-trip. -/
theorem C2_serialize_parse_roundtrip (T : Str) (now : Nat)
    (hT : ∀ l ∈ T.splitOn '\n', lineShape l = true) :
    serializeTreeToText (parseTextToTree T now) = T := by
  have hfilter : (T.splitOn '\n').filter (fun l => !(jsTrim l).isEmpty)
      = T.splitOn '\n' :=
    List.filter_eq_self.mpr (fun l hl => lineShape_trim_ne (hT l hl))
  have hshape : ∀ q ∈ (T.splitOn '\n').enum, lineShape q.2 = true := by
    intro q hq
    apply hT
    have : q.2 ∈ (T.splitOn '\n').enum.map (fun p => p.2) :=
      List.mem_map_of_mem _ hq
    rwa [List.enum_map_snd] at this
  have hser : serLinesF (parseTextToTree T now) = T.splitOn '\n' := by
    rw [parseTextToTree]
    simp only [hfilter]
    have hz := popGE_zero_stack
      ((T.splitOn '\n').enum.foldl (parseStep now) ([], [])).1
      ((T.splitOn '\n').enum.foldl (parseStep now) ([], [])).2
    have hps := popGE_ser 0
      ((T.splitOn '\n').enum.foldl (parseStep now) ([], [])).1
      ((T.splitOn '\n').enum.foldl (parseStep now) ([], [])).2
    rw [hz, stackSerLines, List.append_nil] at hps
    rw [hps]
    have := foldl_parseStep_ser now ((T.splitOn '\n').enum) [] [] hshape
    simp only [serLinesF, stackSerLines, List.nil_append] at this
    rw [this, List.enum_map_snd]
  rw [serializeTreeToText, hser]
  exact List.intercalate_splitOn T '\n'

/-- C2 witness: the text `aa\n\tb\nc` is made of well-shaped tab-indented
lines, and the round trip reproduces it. -/
theorem C2_witness :
    serializeTreeToText (parseTextToTree ("aa\n\tb\nc").toList 7)
      = ("aa\n\tb\nc").toList :=
  C2_serialize_parse_roundtrip ("aa\n\tb\nc").toList 7 (by decide)

theorem strictOkF_append (a b : List TNode) :
    strictOkF (a ++ b) = (strictOkF a && strictOkF b) := by
  induction a with
  | nil => simp [strictOkF]
  | cons n rest ih => simp [strictOkF, ih, Bool.and_assoc]

theorem strictAbove_append (d : Nat) (a b : List TNode) :
    strictAbove d (a ++ b) = (strictAbove d a && strictAbove d b) := by
  induction a with
  | nil => simp [strictAbove]
  | cons n rest ih => simp [strictAbove, ih, Bool.and_assoc]

theorem withChild_strict {q p : TNode} (hq : strictOkT q = true)
    (hp : strictOkT p = true) (hd : q.depth < p.depth) :
    strictOkT (withChild q p) = true := by
  cases q with
  | mk i t d c e =>
    simp only [TNode.depth_mk] at hd
    simp only [withChild, TNode.id_mk, TNode.text_mk, TNode.depth_mk,
      TNode.children_mk, TNode.isExpanded_mk, strictOkT, strictAbove_append]
    simp only [strictOkT] at hq
    simp [hq, strictAbove, hd, hp]

theorem popGEAux_strict (d : Nat) : ∀ (rs r : List TNode) (p : TNode),
    strictOkF r = true → strictOkT p = true →
    (∀ f ∈ rs, strictOkT f = true) →
    List.Chain' (fun a b => b.depth < a.depth) (p :: rs) →
    strictOkF (popGEAux d r p rs).1 = true
    ∧ (∀ f ∈ (popGEAux d r p rs).2, strictOkT f = true)
    ∧ List.Chain' (fun a b => b.depth < a.depth) (popGEAux d r p rs).2
    ∧ (∀ f, (popGEAux d r p rs).2.head? = some f → f.depth < d) := by
  intro rs
  induction rs with
  | nil =>
    intro r p hr hp hs hc
    rw [popGEAux]
    refine ⟨?_, by simp, by simp, by simp⟩
    rw [strictOkF_append]
    simp [hr, strictOkF, hp]
  | cons q rs2 ih =>
    intro r p hr hp hs hc
    have hqp : q.depth < p.depth := (List.chain'_cons.mp hc).1
    have hq : strictOkT q = true := hs q (List.mem_cons_self _ _)
    have hw : strictOkT (withChild q p) = true := withChild_strict hq hp hqp
    have hcq : List.Chain' (fun a b => b.depth < a.depth)
        (withChild q p :: rs2) := by
      have h2 : List.Chain' (fun a b => b.depth < a.depth) (q :: rs2) :=
        (List.chain'_cons.mp hc).2
      cases rs2 with
      | nil => simp
      | cons w rs3 =>
        rw [List.chain'_cons] at h2 ⊢
        exact ⟨by rw [withChild_depth]; exact h2.1, h2.2⟩
    rw [popGEAux]
    split
    · exact ih r (withChild q p) hr hw
        (fun f hf => hs f (List.mem_cons_of_mem _ hf)) hcq
    · rename_i hlt
      refine ⟨hr, ?_, hcq, ?_⟩
      · intro f hf
        rcases List.mem_cons.mp hf with hf | hf
        · rw [hf]
          exact hw
        · exact hs f (List.mem_cons_of_mem _ hf)
      · intro f hf
        simp only [List.head?_cons, Option.some_inj] at hf
        rw [← hf, withChild_depth]
        omega

theorem popGE_strict (d : Nat) (r : List TNode) (st : List TNode)
    (hr : strictOkF r = true) (hs : ∀ f ∈ st, strictOkT f = true)
    (hc : List.Chain' (fun a b => b.depth < a.depth) st) :
    strictOkF (popGE d r st).1 = true
    ∧ (∀ f ∈ (popGE d r st).2, strictOkT f = true)
    ∧ List.Chain' (fun a b => b.depth < a.depth) (popGE d r st).2
    ∧ (∀ f, (popGE d r st).2.head? = some f → f.depth < d) := by
  cases st with
  | nil => exact ⟨hr, by simp [popGE], by simp [popGE], by simp [popGE]⟩
  | cons top rest =>
    rw [popGE]
    split
    · exact popGEAux_strict d rest r top hr
        (hs top (List.mem_cons_self _ _))
        (fun f hf => hs f (List.mem_cons_of_mem _ hf)) hc
    · rename_i hlt
      refine ⟨hr, hs, hc, ?_⟩
      intro f hf
      simp only [List.head?_cons, Option.some_inj] at hf
      rw [← hf]
      omega

theorem foldl_parseStep_strict (now : Nat) : ∀ (L : List (Nat × Str))
    (r s : List TNode), strictOkF r = true →
    (∀ f ∈ s, strictOkT f = true) →
    List.Chain' (fun a b => b.depth < a.depth) s →
    strictOkF ((L.foldl (parseStep now) (r, s)).1) = true
    ∧ (∀ f ∈ (L.foldl (parseStep now) (r, s)).2, strictOkT f = true)
    ∧ List.Chain' (fun a b => b.depth < a.depth)
        ((L.foldl (parseStep now) (r, s)).2) := by
  intro L
  induction L with
  | nil => exact fun r s h1 h2 h3 => ⟨h1, h2, h3⟩
  | cons q L2 ih =>
    intro r s h1 h2 h3
    rw [List.foldl_cons]
    obtain ⟨g1, g2, g3, g4⟩ := popGE_strict (getIndentDepth q.2) r s h1 h2 h3
    have hstep : parseStep now (r, s) q
        = ((popGE (getIndentDepth q.2) r s).1,
           TNode.mk (mkNodeId now q.1) (jsTrim (stripTabs q.2))
             (getIndentDepth q.2) [] true
             :: (popGE (getIndentDepth q.2) r s).2) := rfl
    rw [hstep]
    apply ih
    · exact g1
    · intro f hf
      rcases List.mem_cons.mp hf with hf | hf
      · rw [hf]
        rfl
      · exact g2 f hf
    · cases hst : (popGE (getIndentDepth q.2) r s).2 with
      | nil => simp
      | cons w rs3 =>
        rw [List.chain'_cons]
        constructor
        · have := g4 w (by rw [hst]; rfl)
          simpa using this
        · have := g3
          rw [hst] at this
          exact this

/-- C3 counterexample: the text `\ta\n\t\t\tb` (an indented first line and
a two-level indent jump) parses into a forest whose single root stores
depth 1 — not 0 — and whose child stores depth 3 — not root depth + 1 —
so the claimed invariant `depth(child) = depth(parent) + 1` with roots
at depth 0 is false for the parser on such texts. -/
theorem C3_counterexample :
    parserDepthClaim (parseTextToTree ("\ta\n\t\t\tb").toList 0) = false := by
  decide

/-- C3 (amended): for every input text, every node of the parsed forest
stores a depth strictly greater than its parent's (the stored depth is
the line's literal leading-tab count, so it can exceed the parent's
depth by more than one after an indentation jump, and a root's depth can
be non-zero when its line is indented). -/
theorem C3_parser_depth_amended (T : Str) (now : Nat) :
    strictOkF (parseTextToTree T now) = true := by
  rw [parseTextToTree]
  have h := foldl_parseStep_strict now
    ((T.splitOn '\n').filter (fun l => !(jsTrim l).isEmpty)).enum [] []
    rfl (by simp) (by simp)
  obtain ⟨g1, g2, g3⟩ := h
  exact (popGE_strict 0 _ _ g1 g2 g3).1

mutual
theorem setText_info_T : ∀ (n0 : TNode) (x nt : Str), (idsT n0).Nodup →
    infoT (setTextT x nt n0)
      = (infoT n0).map (fun p => if p.1 = x then (p.1, nt, p.2.2) else p)
  | .mk i t d c e, x, nt => by
    intro hnd
    obtain ⟨hic, hndc⟩ := nodupT_parts hnd
    rw [setTextT]
    by_cases hix : i = x
    · rw [if_pos hix]
      rw [infoT_eq, infoT_eq]
      simp only [TNode.id_mk, TNode.text_mk, TNode.depth_mk,
        TNode.children_mk, List.map_cons, if_pos hix]
      have hmapc : (infoF c).map
          (fun p => if p.1 = x then (p.1, nt, p.2.2) else p) = infoF c := by
        have : ∀ p ∈ infoF c,
            (if p.1 = x then (p.1, nt, p.2.2) else p) = p := by
          intro p hp
          rw [if_neg]
          intro hpx
          exact hic (by rw [hix, ← hpx]; exact infoF_fst_mem hp)
        have h2 : (infoF c).map
            (fun p => if p.1 = x then (p.1, nt, p.2.2) else p)
            = (infoF c).map id := List.map_congr_left (fun p hp => this p hp)
        rw [h2, List.map_id]
      rw [hmapc]
    · rw [if_neg hix]
      rw [infoT_eq, infoT_eq]
      simp only [TNode.id_mk, TNode.text_mk, TNode.depth_mk,
        TNode.children_mk, List.map_cons, if_neg hix]
      rw [setText_info_F c x nt hndc]
theorem setText_info_F : ∀ (l : List TNode) (x nt : Str), (idsF l).Nodup →
    infoF (setTextF x nt l)
      = (infoF l).map (fun p => if p.1 = x then (p.1, nt, p.2.2) else p)
  | [], x, nt => by simp [setTextF, infoF]
  | n :: rest, x, nt => by
    intro hnd
    obtain ⟨hndT, hndR, _⟩ := nodupF_cons hnd
    rw [setTextF, infoF, infoF, List.map_append]
    rw [setText_info_T n x nt hndT, setText_info_F rest x nt hndR]
end

/-- C8: for a node id present in the tree, `handleUpdateText` with a
text that trims to empty deletes exactly that node's subtree (the
result is `removeNode`, and the surviving pre-order `(id, text, depth)`
entries are exactly the original ones outside the deleted subtree, in
order); with a non-blank text it rewrites exactly that node's `text`
and leaves every other node's id, text, depth and pre-order position
unchanged. -/
theorem C8_setText_delete_or_update (nodes : List TNode) (x nt : Str)
    (n : TNode) (hnd : (idsF nodes).Nodup) (hx : findF x nodes = some n) :
    ((jsTrim nt).isEmpty = true →
      handleUpdateTextNodes nodes x nt = removeF x nodes
      ∧ infoF (removeF x nodes)
        = (infoF nodes).filter (fun p => decide (p.1 ∉ idsT n)))
    ∧ ((jsTrim nt).isEmpty = false →
      infoF (handleUpdateTextNodes nodes x nt)
        = (infoF nodes).map (fun p => if p.1 = x then (p.1, nt, p.2.2) else p)) := by
  constructor
  · intro hempty
    refine ⟨?_, remove_info_F nodes x n hnd hx⟩
    rw [handleUpdateTextNodes, if_pos hempty]
  · intro hfull
    rw [handleUpdateTextNodes, if_neg (by rw [hfull]; exact Bool.false_ne_true)]
    exact setText_info_F nodes x nt hnd

/-- C8 witness: on the forest `a[b], c`, blanking `b`'s text deletes the
`b` subtree, and setting it to `BB` rewrites only `b`'s entry. -/
theorem C8_witness :
    (infoF (removeF ['b']
        [TNode.mk ['a'] ['A'] 0 [TNode.mk ['b'] ['B'] 1 [] true] true,
         TNode.mk ['c'] ['C'] 0 [] true])
      = (infoF [TNode.mk ['a'] ['A'] 0 [TNode.mk ['b'] ['B'] 1 [] true] true,
         TNode.mk ['c'] ['C'] 0 [] true]).filter
          (fun p => decide (p.1 ∉ idsT (TNode.mk ['b'] ['B'] 1 [] true))))
    ∧ (infoF (handleUpdateTextNodes
        [TNode.mk ['a'] ['A'] 0 [TNode.mk ['b'] ['B'] 1 [] true] true,
         TNode.mk ['c'] ['C'] 0 [] true] ['b'] ['B', 'B'])
      = (infoF [TNode.mk ['a'] ['A'] 0 [TNode.mk ['b'] ['B'] 1 [] true] true,
         TNode.mk ['c'] ['C'] 0 [] true]).map
          (fun p => if p.1 = ['b'] then (p.1, ['B', 'B'], p.2.2) else p)) :=
  ⟨((C8_setText_delete_or_update
      [TNode.mk ['a'] ['A'] 0 [TNode.mk ['b'] ['B'] 1 [] true] true,
       TNode.mk ['c'] ['C'] 0 [] true] ['b'] [' ']
      (TNode.mk ['b'] ['B'] 1 [] true) (by decide) rfl).1 (by decide)).2,
   (C8_setText_delete_or_update
      [TNode.mk ['a'] ['A'] 0 [TNode.mk ['b'] ['B'] 1 [] true] true,
       TNode.mk ['c'] ['C'] 0 [] true] ['b'] ['B', 'B']
      (TNode.mk ['b'] ['B'] 1 [] true) (by decide) rfl).2 (by decide)⟩

mutual
theorem flatNodesT_setMem_not_mem : ∀ (n0 : TNode) (S : Str → Bool)
    (x : Str) (b : Bool), x ∉ idsT n0 →
    flatNodesT (setMem S x b) n0 = flatNodesT S n0
  | .mk i t d c e, S, x, b => by
    intro hx
    simp only [idsT, List.mem_cons, not_or] at hx
    have hSi : setMem S x b i = S i := by
      rw [setMem, if_neg (fun h => hx.1 h.symm)]
    rw [flatNodesT, flatNodesT, hSi,
      flatNodesF_setMem_not_mem c S x b hx.2]
theorem flatNodesF_setMem_not_mem : ∀ (l : List TNode) (S : Str → Bool)
    (x : Str) (b : Bool), x ∉ idsF l →
    flatNodesF (setMem S x b) l = flatNodesF S l
  | [], S, x, b => fun _ => rfl
  | n :: rest, S, x, b => by
    intro hx
    simp only [idsF, List.mem_append, not_or] at hx
    rw [flatNodesF, flatNodesF, flatNodesT_setMem_not_mem n S x b hx.1,
      flatNodesF_setMem_not_mem rest S x b hx.2]
end

mutual
theorem flatNodesT_id_mem : ∀ (n0 : TNode) (S : Str → Bool) (m : FlatNode),
    m ∈ flatNodesT S n0 → m.id ∈ idsT n0
  | .mk i t d c e, S, m => by
    intro hm
    rw [flatNodesT] at hm
    simp only [idsT, List.mem_cons]
    rcases List.mem_cons.mp hm with hm | hm
    · left
      rw [hm]
    · right
      split at hm
      · exact flatNodesF_id_mem c S m hm
      · cases hm
theorem flatNodesF_id_mem : ∀ (l : List TNode) (S : Str → Bool) (m : FlatNode),
    m ∈ flatNodesF S l → m.id ∈ idsF l
  | [], S, m => fun hm => absurd hm (List.not_mem_nil m)
  | n :: rest, S, m => by
    intro hm
    rw [flatNodesF] at hm
    simp only [idsF, List.mem_append]
    rcases List.mem_append.mp hm with hm | hm
    · exact Or.inl (flatNodesT_id_mem n S m hm)
    · exact Or.inr (flatNodesF_id_mem rest S m hm)
end

theorem flatCore_fst {m : FlatNode} : (flatCore m).1 = m.id := rfl

theorem filter_core_keep {part : List FlatNode} {bad : List Str}
    (h : ∀ m ∈ part, m.id ∉ bad) :
    (part.map flatCore).filter (fun q => decide (q.1 ∉ bad))
      = part.map flatCore := by
  rw [List.filter_eq_self]
  intro q hq
  rcases List.mem_map.mp hq with ⟨m, hm, hcore⟩
  simp only [decide_eq_true_eq]
  rw [← hcore, flatCore_fst]
  exact h m hm

theorem filter_core_drop {part : List FlatNode} {bad : List Str}
    (h : ∀ m ∈ part, m.id ∈ bad) :
    (part.map flatCore).filter (fun q => decide (q.1 ∉ bad)) = [] := by
  rw [List.filter_eq_nil_iff]
  intro q hq
  rcases List.mem_map.mp hq with ⟨m, hm, hcore⟩
  simp only [decide_eq_true_eq, not_not]
  rw [← hcore, flatCore_fst]
  exact h m hm

mutual
theorem flat_collapse_T : ∀ (n0 : TNode) (S : Str → Bool) (x : Str)
    (n : TNode), (idsT n0).Nodup → findT x n0 = some n →
    (flatNodesT (setMem S x false) n0).map flatCore
      = ((flatNodesT S n0).map flatCore).filter
          (fun q => decide (q.1 ∉ idsF n.children))
  | .mk i t d c e, S, x, n => by
    intro hnd hf
    obtain ⟨hic, hndc⟩ := nodupT_parts hnd
    rw [findT] at hf
    by_cases hix : i = x
    · rw [if_pos hix] at hf
      injection hf with hf
      have hchild : n.children = c := by
        rw [← hf]
        rfl
      have hSx : setMem S x false i = false := by
        rw [setMem, if_pos hix]
      rw [flatNodesT, flatNodesT, hSx]
      simp only [Bool.false_eq_true, if_false, List.map_cons, List.map_append,
        List.map_nil, List.append_nil, List.filter_cons]
      rw [if_pos (by
        simp only [decide_eq_true_eq, flatCore]
        rw [hchild]
        exact hic)]
      by_cases hS : S i = true
      · rw [if_pos hS]
        rw [filter_core_drop (fun m hm => by
          rw [hchild]
          exact flatNodesF_id_mem c S m hm)]
        rfl
      · rw [if_neg hS]
        rfl
    · rw [if_neg hix] at hf
      have hxc : x ∈ idsF c := findF_mem_ids hf
      have hsub : List.Sublist (idsT n) (idsF c) := by
        rcases findF_mem c x n hf with ⟨_, hocc⟩
        exact occursF_ids_sublist c n hocc
      have hchsub : ∀ y ∈ idsF n.children, y ∈ idsF c := by
        intro y hy
        apply hsub.subset
        rw [idsT_eq]
        exact List.mem_cons_of_mem _ hy
      have hSi : setMem S x false i = S i := by
        rw [setMem, if_neg hix]
      rw [flatNodesT, flatNodesT, hSi]
      by_cases hS : S i = true
      · rw [if_pos hS, if_pos hS]
        rw [List.map_cons, List.map_cons, List.filter_cons]
        rw [if_pos (by
          simp only [decide_eq_true_eq, flatCore]
          exact fun hm => hic (hchsub i hm))]
        rw [flat_collapse_F c S x n hndc hf]
      · rw [if_neg hS, if_neg hS]
        simp only [List.map_cons, List.map_nil, List.filter_cons]
        rw [if_pos (by
          simp only [decide_eq_true_eq, flatCore]
          exact fun hm => hic (hchsub i hm))]
        rw [List.filter_nil]
theorem flat_collapse_F : ∀ (l : List TNode) (S : Str → Bool) (x : Str)
    (n : TNode), (idsF l).Nodup → findF x l = some n →
    (flatNodesF (setMem S x false) l).map flatCore
      = ((flatNodesF S l).map flatCore).filter
          (fun q => decide (q.1 ∉ idsF n.children))
  | [], S, x, n => by simp [findF]
  | n1 :: rest, S, x, n => by
    intro hnd hf
    obtain ⟨hndT, hndR, hdisj⟩ := nodupF_cons hnd
    rw [findF] at hf
    rw [flatNodesF, flatNodesF, List.map_append, List.map_append,
      List.filter_append]
    cases h1 : findT x n1 with
    | some m =>
      rw [h1] at hf
      have hm : m = n := by injection hf
      rw [hm] at h1
      have hx1 : x ∈ idsT n1 := by
        rcases findT_mem n1 x n h1 with ⟨hid, hocc⟩
        rw [← hid]
        exact occursT_id_mem n1 n hocc
      have hxr : x ∉ idsF rest := fun hmem => hdisj hx1 hmem
      have hchsub : ∀ y ∈ idsF n.children, y ∈ idsT n1 := by
        intro y hy
        apply (occursT_ids_sublist n1 n (findT_mem n1 x n h1).2).subset
        rw [idsT_eq]
        exact List.mem_cons_of_mem _ hy
      rw [flatNodesF_setMem_not_mem rest S x false hxr]
      rw [flat_collapse_T n1 S x n hndT h1]
      rw [filter_core_keep (fun m2 hm2 hbad =>
        hdisj (hchsub m2.id hbad) (flatNodesF_id_mem rest S m2 hm2))]
    | none =>
      rw [h1] at hf
      have hx1 : x ∉ idsT n1 := by
        intro hmem
        have := findT_isSome n1 x hmem
        rw [h1] at this
        cases this
      have hchsub : ∀ y ∈ idsF n.children, y ∈ idsF rest := by
        intro y hy
        apply (occursF_ids_sublist rest n (findF_mem rest x n hf).2).subset
        rw [idsT_eq]
        exact List.mem_cons_of_mem _ hy
      rw [flatNodesT_setMem_not_mem n1 S x false hx1]
      rw [flat_collapse_F rest S x n hndR hf]
      rw [filter_core_keep (fun m2 hm2 hbad =>
        hdisj (flatNodesT_id_mem n1 S m2 hm2) (hchsub m2.id hbad))]
end

/-- C9: the component's `flatNodes` is the pre-order walk that emits a
node's children exactly when the node's id is in the expanded set.
Collapsing a present node `x` removes exactly the records of `x`'s
descendants from the output, leaving every other emitted record (id,
text, depth, has-children) in the same relative order; re-expanding `x`
restores the expanded set, and with it exactly the output before the
collapse. -/
theorem C9_flatten_collapse_expand (nodes : List TNode) (S : Str → Bool)
    (x : Str) (n : TNode) (hnd : (idsF nodes).Nodup)
    (hx : findF x nodes = some n) :
    ((flatNodesF (setMem S x false) nodes).map flatCore
      = ((flatNodesF S nodes).map flatCore).filter
          (fun q => decide (q.1 ∉ idsF n.children)))
    ∧ (S x = true →
        flatNodesF (setMem (setMem S x false) x true) nodes
          = flatNodesF S nodes) := by
  refine ⟨flat_collapse_F nodes S x n hnd hx, ?_⟩
  intro hS
  have hfun : setMem (setMem S x false) x true = S := by
    funext i
    rw [setMem, setMem]
    by_cases h : i = x
    · rw [if_pos h, h, hS]
    · rw [if_neg h, if_neg h]
  rw [hfun]

/-- C9 witness: collapsing the root `a` of `a[b], c` removes `b`'s
record and keeps `a` and `c` in order; re-expanding restores the
original flattening. -/
theorem C9_witness :
    ((flatNodesF (setMem (fun _ => true) ['a'] false)
        [TNode.mk ['a'] ['A'] 0 [TNode.mk ['b'] ['B'] 1 [] true] true,
         TNode.mk ['c'] ['C'] 0 [] true]).map flatCore
      = ((flatNodesF (fun _ => true)
        [TNode.mk ['a'] ['A'] 0 [TNode.mk ['b'] ['B'] 1 [] true] true,
         TNode.mk ['c'] ['C'] 0 [] true]).map flatCore).filter
          (fun q => decide (q.1 ∉
            idsF (TNode.mk ['a'] ['A'] 0
              [TNode.mk ['b'] ['B'] 1 [] true] true).children)))
    ∧ ((fun _ : Str => true) ['a'] = true →
        flatNodesF (setMem (setMem (fun _ => true) ['a'] false) ['a'] true)
          [TNode.mk ['a'] ['A'] 0 [TNode.mk ['b'] ['B'] 1 [] true] true,
           TNode.mk ['c'] ['C'] 0 [] true]
        = flatNodesF (fun _ => true)
          [TNode.mk ['a'] ['A'] 0 [TNode.mk ['b'] ['B'] 1 [] true] true,
           TNode.mk ['c'] ['C'] 0 [] true]) :=
  C9_flatten_collapse_expand
    [TNode.mk ['a'] ['A'] 0 [TNode.mk ['b'] ['B'] 1 [] true] true,
     TNode.mk ['c'] ['C'] 0 [] true] (fun _ => true) ['a']
    (TNode.mk ['a'] ['A'] 0 [TNode.mk ['b'] ['B'] 1 [] true] true)
    (by decide) rfl
